import Mathlib

/-!
# Portal engine: `render_sector` and its clip-buffer discipline

A shallow embedding of `src/portal_engine.c` (`init_map`, `render_sector`).

Modelling conventions
* `double`/`float` values are exact rationals (`ℚ`) and their operations are exact; the
  literals `0.1` and `1e-8` are the rationals `1/10` and `1/10^8`. Rounding of `double`
  operations is not modelled: a statement about a row or column that sits on an integer
  boundary of the conversion `(int)` holds of this idealisation only.
* `player.angle` only ever enters the renderer through `sin(player.angle)` and
  `cos(player.angle)`; the model's `Player` carries that pair instead of the angle.
* `FOV` is 90 degrees, so `tan(FOV * M_PI / 360.0)` is `tan (π/4) = 1` in exact arithmetic
  and `scale_factor` is `(SCREEN_W / 2) / 1` (the `double` quotient is
  `480.00000000000006`).
* `int` is a 32-bit integer, modelled in `Int`; the conversion `(int)` of a `double`
  truncates toward zero when the truncated value fits `int`, and gives `INT_MIN` otherwise
  (C leaves that conversion undefined; `INT_MIN` is what the x86-64 conversion instruction
  returns).
* The global tables `sectors[]` and `walls[]` are total maps from an index to an entry;
  `ClipRange clip[SCREEN_W]` is a map from a column to its range.
* The renderer's output is the sequence of `SDL_RenderDrawLine` calls (with the colour set
  just before each of them) interleaved with a record of every recursive invocation.
* Call nesting is bounded by an explicit budget (`fuel`); `none` means the budget ran out.
-/

namespace PortalEngine

/-! ## Constants (lines 6-11) -/

def SCREEN_W : Int := 960
def SCREEN_H : Int := 720
def MAX_RECURSION : Int := 16

/-- Exact value of `tan(FOV * M_PI / 360.0)` for `FOV = 90.0`, namely `tan (π/4)`. (The
`double` the C library returns for it is `0.9999999999999999`; the embedding is over exact
arithmetic.) -/
def tan_half_fov : ℚ := 1

/-- Line 85: `(SCREEN_W / 2.0) / tan(FOV * M_PI / 360.0)`. -/
def scale_factor : ℚ := ((SCREEN_W : ℚ) / 2) / tan_half_fov

/-- Near-plane depth: the literal `0.1` of lines 103-117. -/
def near_plane : ℚ := 1 / 10

/-- Threshold of lines 141 and 196: the literal `1e-8`. -/
def denom_eps : ℚ := 1 / 100000000

/-- Least value of the 32-bit type `int`. -/
def INT_MIN : Int := -2147483648

/-- Greatest value of the 32-bit type `int`. -/
def INT_MAX : Int := 2147483647

/-- The conversion `(int)` of a `double`: truncation toward zero when the truncated value
lies in `INT_MIN .. INT_MAX`. For the other values C leaves the conversion undefined; the
x86-64 conversion instruction returns `INT_MIN`, and that is the value taken here. -/
def to_int (q : ℚ) : Int :=
  if (INT_MIN : ℚ) - 1 < q ∧ q < (INT_MAX : ℚ) + 1 then (if 0 ≤ q then ⌊q⌋ else ⌈q⌉)
  else INT_MIN

/-! ## Data model (lines 18-50) -/

structure Vec2 where
  x : ℚ
  y : ℚ

structure Wall where
  a : Vec2
  b : Vec2
  portal_sector : Int
  color : Nat

structure Sector where
  start_wall : Int
  num_walls : Int
  floor_h : ℚ
  ceil_h : ℚ
  floor_color : Nat
  ceil_color : Nat

/-- The `Player` record; `sin_angle` and `cos_angle` stand for `sin(player.angle)` and
`cos(player.angle)`. -/
structure Player where
  x : ℚ
  y : ℚ
  z : ℚ
  sin_angle : ℚ
  cos_angle : ℚ
  current_sector : Int

structure ClipRange where
  top : Int
  bottom : Int

/-- A clip buffer `ClipRange clip[SCREEN_W]`, indexed by column. -/
abbrev ClipBuffer := Int → ClipRange

/-- The global tables `sectors[]` and `walls[]`. -/
structure World where
  sectors : Int → Sector
  walls : Int → Wall

/-- Which of the three draw sites of the column loop issued a line: line 158 (ceiling),
line 168 (floor) or line 179 (wall). -/
inductive SegKind
  | ceiling
  | floor
  | wall
  deriving DecidableEq, Repr

/-- Observable steps of a render pass.
`line k x y1 y2 r g b` is `SDL_SetRenderDrawColor(renderer, r, g, b, 255)` followed by
`SDL_RenderDrawLine(renderer, x, y1, x, y2)` at draw site `k`.
`call sector_id clip newclip recursion` is the invocation
`render_sector(renderer, sector_id, newclip, recursion)` of line 210, made while the caller's
own buffer is `clip`. -/
inductive Event
  | line (k : SegKind) (x y1 y2 : Int) (r g b : Nat)
  | call (sector_id : Int) (clip newclip : ClipBuffer) (recursion : Int)

/-! ## Colour unpacking (lines 155-157, 165-167, 176-178) -/

def red (c : Nat) : Nat := (c >>> 24) &&& 0xFF
def green (c : Nat) : Nat := (c >>> 16) &&& 0xFF
def blue (c : Nat) : Nat := (c >>> 8) &&& 0xFF

/-! ## Projection of one wall (lines 90-136) -/

/-- Camera-space endpoints `(vx1, vz1, vx2, vz2)` of a wall, lines 90-101. -/
def camera_space (p : Player) (w : Wall) : ℚ × ℚ × ℚ × ℚ :=
  let dx1 := w.a.x - p.x
  let dy1 := w.a.y - p.y
  let dx2 := w.b.x - p.x
  let dy2 := w.b.y - p.y
  let vx1 := -dx1 * p.sin_angle + dy1 * p.cos_angle
  let vz1 := dx1 * p.cos_angle + dy1 * p.sin_angle
  let vx2 := -dx2 * p.sin_angle + dy2 * p.cos_angle
  let vz2 := dx2 * p.cos_angle + dy2 * p.sin_angle
  (vx1, vz1, vx2, vz2)

/-- One near-plane clipping step (lines 106-112, and 113-119 with the roles exchanged):
the endpoint `(vx1, vz1)` is moved along the segment toward `(vx2, vz2)`. -/
def clip_endpoint (vx1 vz1 vx2 vz2 : ℚ) : ℚ × ℚ :=
  if vz1 < near_plane then
    let t := (near_plane - vz1) / (vz2 - vz1)
    if 0 ≤ t ∧ t ≤ 1 then (vx1 + t * (vx2 - vx1), near_plane) else (vx1, vz1)
  else (vx1, vz1)

/-- Both clipping steps in sequence, lines 106-119: the second one sees the first endpoint
as already updated. -/
def near_clip (v : ℚ × ℚ × ℚ × ℚ) : ℚ × ℚ × ℚ × ℚ :=
  let e1 := clip_endpoint v.1 v.2.1 v.2.2.1 v.2.2.2
  let e2 := clip_endpoint v.2.2.1 v.2.2.2 e1.1 e1.2
  (e1.1, e1.2, e2.1, e2.2)

/-- Line 121 / 122: the screen column of a camera-space point. -/
def project_x (vx vz : ℚ) : Int :=
  to_int ((SCREEN_W : ℚ) / 2 + vx * scale_factor / vz)

/-- What the column loops need from a wall that survived lines 103-133: the clamped
column span and the camera-space endpoints, ordered left to right. -/
structure Span where
  x1 : Int
  x2 : Int
  vx1 : ℚ
  vz1 : ℚ
  vx2 : ℚ
  vz2 : ℚ

/-- Lines 121-133 on clipped endpoints: projection, the swap, the off-screen test and the
clamp. `none` is a `continue`. -/
def screen_span (v : ℚ × ℚ × ℚ × ℚ) : Option Span :=
  let x1 := project_x v.1 v.2.1
  let x2 := project_x v.2.2.1 v.2.2.2
  if x1 = x2 then none
  else
    let s : Span :=
      if x2 < x1 then ⟨x2, x1, v.2.2.1, v.2.2.2, v.1, v.2.1⟩
      else ⟨x1, x2, v.1, v.2.1, v.2.2.1, v.2.2.2⟩
    if s.x2 < 0 ∨ s.x1 ≥ SCREEN_W then none
    else
      some { s with
        x1 := if s.x1 < 0 then 0 else s.x1
        x2 := if s.x2 ≥ SCREEN_W then SCREEN_W - 1 else s.x2 }

/-- Lines 90-133 for one wall. `none` is one of the three `continue`s. -/
def project_wall (p : Player) (w : Wall) : Option Span :=
  let v := camera_space p w
  if v.2.1 < near_plane ∧ v.2.2.2 < near_plane then none
  else screen_span (near_clip v)

/-! ## One column (lines 139-185 and 194-207) -/

/-- Lines 139-149 (and, verbatim, 194-204): the projected ceiling and floor rows `(cy, fy)`
of column `x`. `none` is the `continue` of line 141 / 196. -/
def column_rows (s : Sector) (p : Player) (sp : Span) (x : Int) : Option (Int × Int) :=
  let inv_vz1 := 1 / sp.vz1
  let inv_vz2 := 1 / sp.vz2
  let screen_u := ((x : ℚ) - (SCREEN_W : ℚ) / 2) / scale_factor
  let denom := sp.vx2 * inv_vz2 - sp.vx1 * inv_vz1
  if |denom| < denom_eps then none
  else
    let u := max 0 (min 1 ((screen_u - sp.vx1 * inv_vz1) / denom))
    let inv_vz := inv_vz1 * (1 - u) + inv_vz2 * u
    let proj := scale_factor * inv_vz
    let cy := to_int ((SCREEN_H : ℚ) / 2 - (s.ceil_h - p.z) * proj)
    let fy := to_int ((SCREEN_H : ℚ) / 2 - (s.floor_h - p.z) * proj)
    some (cy, fy)

/-- Lines 139-145 without the test of line 141: the interpolated inverse depth `inv_vz` of
column `x`, as `column_rows` computes it. -/
def column_inv_vz (sp : Span) (x : Int) : ℚ :=
  let inv_vz1 := 1 / sp.vz1
  let inv_vz2 := 1 / sp.vz2
  let screen_u := ((x : ℚ) - (SCREEN_W : ℚ) / 2) / scale_factor
  let denom := sp.vx2 * inv_vz2 - sp.vx1 * inv_vz1
  let u := max 0 (min 1 ((screen_u - sp.vx1 * inv_vz1) / denom))
  inv_vz1 * (1 - u) + inv_vz2 * u

/-- Lines 151-180: the lines drawn at column `x`, in source order (ceiling, floor, wall),
against the clip range `c = clip[x]`. -/
def draw_column (s : Sector) (w : Wall) (x cy fy : Int) (c : ClipRange) : List Event :=
  let ceil_bot := if cy > c.top then cy else c.top
  let floor_top := if fy < c.bottom then fy else c.bottom
  let wall_top := if cy > c.top then cy else c.top
  let wall_bot := if fy < c.bottom then fy else c.bottom
  (if ceil_bot > 0 then
      [Event.line SegKind.ceiling x 0 (ceil_bot - 1)
        (red s.ceil_color) (green s.ceil_color) (blue s.ceil_color)]
    else []) ++
  (if floor_top < SCREEN_H - 1 then
      [Event.line SegKind.floor x (floor_top + 1) (SCREEN_H - 1)
        (red s.floor_color) (green s.floor_color) (blue s.floor_color)]
    else []) ++
  (if wall_top < wall_bot then
      [Event.line SegKind.wall x wall_top wall_bot (red w.color) (green w.color) (blue w.color)]
    else [])

/-- Lines 183-184 (and 206-207): narrowing of one clip range by `(cy, fy)`. -/
def narrow (c : ClipRange) (cy fy : Int) : ClipRange :=
  { top := if cy > c.top then cy else c.top
    bottom := if fy < c.bottom then fy else c.bottom }

/-- Assignment to `clip[x]`. -/
def set_clip (clip : ClipBuffer) (x : Int) (c : ClipRange) : ClipBuffer :=
  fun j => if j = x then c else clip j

/-- The values `lo, lo+1, ..., hi` taken by a loop `for (v = lo; v <= hi; v++)`. -/
def range_incl (lo hi : Int) : List Int :=
  (List.range (hi + 1 - lo).toNat).map (fun (k : Nat) => lo + (k : Int))

/-- One iteration of the column loop of lines 138-186: the lines drawn at column `x` and
the caller's buffer afterwards (narrowed only when the wall is not a portal, line 182). -/
def column_step (s : Sector) (w : Wall) (p : Player) (sp : Span) (x : Int)
    (clip : ClipBuffer) : List Event × ClipBuffer :=
  match column_rows s p sp x with
  | none => ([], clip)
  | some (cy, fy) =>
    (draw_column s w x cy fy (clip x),
      if w.portal_sector = -1 then set_clip clip x (narrow (clip x) cy fy) else clip)

/-- The column loop of lines 138-186 over the columns `xs`. -/
def wall_columns (s : Sector) (w : Wall) (p : Player) (sp : Span) :
    List Int → ClipBuffer → List Event × ClipBuffer
  | [], clip => ([], clip)
  | x :: xs, clip =>
    let r1 := column_step s w p sp x clip
    let r2 := wall_columns s w p sp xs r1.2
    (r1.1 ++ r2.1, r2.2)

/-- One iteration of the loop of lines 193-208, acting on `newclip`. -/
def portal_step (s : Sector) (p : Player) (sp : Span) (x : Int) (newclip : ClipBuffer) :
    ClipBuffer :=
  match column_rows s p sp x with
  | none => newclip
  | some (cy, fy) => set_clip newclip x (narrow (newclip x) cy fy)

/-- The loop of lines 193-208 over the columns `xs`. -/
def portal_clip (s : Sector) (p : Player) (sp : Span) : List Int → ClipBuffer → ClipBuffer
  | [], newclip => newclip
  | x :: xs, newclip => portal_clip s p sp xs (portal_step s p sp x newclip)

/-! ## The wall loop and the recursion (lines 81-213) -/

/-- The body of the wall loop (lines 88-211) for the wall at offset `i` of sector `s`.
`child sector_id newclip` runs the recursive invocation of line 210 and returns what it
draws; the child's buffer is a local of the caller and is dropped on return. -/
def render_wall (child : Int → ClipBuffer → Option (List Event)) (W : World) (p : Player)
    (s : Sector) (recursion : Int) (i : Int) (clip : ClipBuffer) :
    Option (List Event × ClipBuffer) :=
  let w := W.walls (s.start_wall + i)
  match project_wall p w with
  | none => some ([], clip)
  | some sp =>
    let cols := wall_columns s w p sp (range_incl sp.x1 sp.x2) clip
    if w.portal_sector ≠ -1 then
      let newclip := portal_clip s p sp (range_incl sp.x1 sp.x2) cols.2
      match child w.portal_sector newclip with
      | none => none
      | some sub =>
        some (cols.1 ++ Event.call w.portal_sector cols.2 newclip (recursion + 1) :: sub, cols.2)
    else some cols

/-- The wall loop of lines 87-212 over the wall offsets `is`. -/
def render_walls (child : Int → ClipBuffer → Option (List Event)) (W : World) (p : Player)
    (s : Sector) (recursion : Int) : List Int → ClipBuffer → Option (List Event × ClipBuffer)
  | [], clip => some ([], clip)
  | i :: is, clip =>
    (render_wall child W p s recursion i clip).bind fun r1 =>
      (render_walls child W p s recursion is r1.2).map fun r2 => (r1.1 ++ r2.1, r2.2)

/-- The function `render_sector` of lines 81-213. `fuel` bounds the nesting of invocations;
the result is the sequence of events of the invocation (its own and those of every nested
invocation, in order) and the caller's buffer on return. -/
def render_sector : Nat → World → Player → Int → ClipBuffer → Int →
    Option (List Event × ClipBuffer)
  | 0, _, _, _, _, _ => none
  | fuel + 1, W, p, sector_id, clip, recursion =>
    if recursion > MAX_RECURSION then some ([], clip)
    else
      let s := W.sectors sector_id
      render_walls
        (fun sid newclip => (render_sector fuel W p sid newclip (recursion + 1)).map Prod.fst)
        W p s recursion (range_incl 0 (s.num_walls - 1)) clip

/-- The events of an invocation (nothing when the budget ran out). -/
def events (fuel : Nat) (W : World) (p : Player) (sector_id : Int) (clip : ClipBuffer)
    (recursion : Int) : List Event :=
  match render_sector fuel W p sector_id clip recursion with
  | none => []
  | some r => r.1

/-- The call-nesting budget that an invocation at depth `recursion` needs. -/
def fuel_for (recursion : Int) : Nat := (MAX_RECURSION + 1 - recursion).toNat + 1

/-! ## The default map (lines 54-79) and the frame set-up (lines 303-306) -/

def zero_sector : Sector := ⟨0, 0, 0, 0, 0, 0⟩
def zero_wall : Wall := ⟨⟨0, 0⟩, ⟨0, 0⟩, 0, 0⟩

/-- The tables after `init_map`; entries it does not assign keep their zero initialisation. -/
def init_map : World where
  sectors := fun i =>
    if i = 0 then ⟨0, 4, 0, 3, 0x808080FF, 0x404060FF⟩
    else if i = 1 then ⟨4, 4, 0, 3 / 2, 0x606000FF, 0xA0A040FF⟩
    else zero_sector
  walls := fun i =>
    if i = 0 then ⟨⟨5, 5⟩, ⟨15, 5⟩, -1, 0xFF0000FF⟩
    else if i = 1 then ⟨⟨15, 5⟩, ⟨15, 15⟩, -1, 0x00FF00FF⟩
    else if i = 2 then ⟨⟨15, 15⟩, ⟨5, 15⟩, -1, 0x0000FFFF⟩
    else if i = 3 then ⟨⟨5, 15⟩, ⟨5, 5⟩, 1, 0xFFFF00FF⟩
    else if i = 4 then ⟨⟨5, 15⟩, ⟨5, 5⟩, 0, 0xDDDD00FF⟩
    else if i = 5 then ⟨⟨5, 5⟩, ⟨10, 5⟩, -1, 0xDD0000FF⟩
    else if i = 6 then ⟨⟨10, 5⟩, ⟨10, 15⟩, -1, 0x00DD00FF⟩
    else if i = 7 then ⟨⟨10, 15⟩, ⟨5, 15⟩, -1, 0x0000DDFF⟩
    else zero_wall

/-- The player after `init_map`: heading 270 degrees, whose sine is `-1` and cosine `0`.
(The stored `double` angle is `4.71238898038469`; the C library's cosine of it is about
`-1.8e-16`, not `0`. The pose here is the exact one, sine `-1` and cosine `0`.) -/
def init_player : Player := ⟨10, 13, 1, -1, 0, 0⟩

/-- The same position with the heading turned by `π`: sine `1`, cosine `0`. -/
def turned_player : Player := ⟨10, 13, 1, 1, 0, 0⟩

/-- Sector 0 of the default map with its floor lowered to `-1e8` (a value a `float` holds
exactly). -/
def deep_floor_sector : Sector := ⟨0, 4, -100000000, 3, 0x808080FF, 0x404060FF⟩

/-- The buffer after the reset loop of lines 303-306: every column fully open. -/
def full_clip : ClipBuffer := fun _ => ⟨0, SCREEN_H - 1⟩

/-! ## Predicates used in the statements -/

/-- Buffer `a` is at least as narrow as buffer `b` at every column. -/
def narrower (a b : ClipBuffer) : Prop :=
  ∀ j, (b j).top ≤ (a j).top ∧ (a j).bottom ≤ (b j).bottom

/-- Row `y` is painted by the event: `SDL_RenderDrawLine(x, y1, x, y2)` paints the rows
between its two end rows, both included. -/
def painted (e : Event) (y : Int) : Prop :=
  match e with
  | Event.line _ _ y1 y2 _ _ _ => (y1 ≤ y ∧ y ≤ y2) ∨ (y2 ≤ y ∧ y ≤ y1)
  | Event.call _ _ _ _ => False

/-- The draw site of a line (none for a call record). -/
def site (e : Event) : Option SegKind :=
  match e with
  | Event.line k _ _ _ _ _ _ => some k
  | Event.call _ _ _ _ => none

/-! ## Basic facts about the loops -/

theorem mem_range_incl (lo hi x : Int) : x ∈ range_incl lo hi ↔ lo ≤ x ∧ x ≤ hi := by
  unfold range_incl
  simp only [List.mem_map, List.mem_range]
  constructor
  · rintro ⟨k, hk, rfl⟩
    omega
  · rintro ⟨h1, h2⟩
    exact ⟨(x - lo).toNat, by omega, by omega⟩

theorem range_incl_cons (lo hi : Int) (h : lo ≤ hi) :
    range_incl lo hi = lo :: range_incl (lo + 1) hi := by
  unfold range_incl
  have e : (hi + 1 - lo).toNat = (hi + 1 - (lo + 1)).toNat + 1 := by omega
  rw [e, List.range_succ_eq_map, List.map_cons, List.map_map]
  simp only [Nat.cast_zero, add_zero, List.cons.injEq, true_and]
  apply List.map_congr_left
  intro k _
  simp only [Function.comp_apply, Nat.succ_eq_add_one, Nat.cast_add, Nat.cast_one]
  ring

theorem range_incl_nil (lo hi : Int) (h : hi < lo) : range_incl lo hi = [] := by
  unfold range_incl
  have e : (hi + 1 - lo).toNat = 0 := by omega
  rw [e]
  rfl

theorem range_incl_nodup (lo hi : Int) : (range_incl lo hi).Nodup := by
  unfold range_incl
  refine List.Nodup.map ?_ (List.nodup_range _)
  intro a b hab
  simpa using hab

theorem narrower_refl (a : ClipBuffer) : narrower a a := fun _ => ⟨le_refl _, le_refl _⟩

theorem narrower_trans {a b c : ClipBuffer} (h1 : narrower a b) (h2 : narrower b c) :
    narrower a c :=
  fun j => ⟨le_trans (h2 j).1 (h1 j).1, le_trans (h1 j).2 (h2 j).2⟩

theorem narrow_top (c : ClipRange) (cy fy : Int) :
    c.top ≤ (narrow c cy fy).top ∧ cy ≤ (narrow c cy fy).top := by
  unfold narrow
  dsimp only
  split <;> omega

theorem narrow_bottom (c : ClipRange) (cy fy : Int) :
    (narrow c cy fy).bottom ≤ c.bottom ∧ (narrow c cy fy).bottom ≤ fy := by
  unfold narrow
  dsimp only
  split <;> omega

theorem set_clip_narrower (clip : ClipBuffer) (x cy fy : Int) :
    narrower (set_clip clip x (narrow (clip x) cy fy)) clip := by
  intro j
  unfold set_clip
  by_cases h : j = x
  · subst h
    simp only [if_true]
    exact ⟨(narrow_top _ _ _).1, (narrow_bottom _ _ _).1⟩
  · simp only [h, if_false]
    exact ⟨le_refl _, le_refl _⟩

theorem column_step_narrower (s : Sector) (w : Wall) (p : Player) (sp : Span) (x : Int)
    (clip : ClipBuffer) : narrower (column_step s w p sp x clip).2 clip := by
  unfold column_step
  split
  · exact narrower_refl clip
  · dsimp only
    split
    · exact set_clip_narrower clip x _ _
    · exact narrower_refl clip

theorem portal_step_narrower (s : Sector) (p : Player) (sp : Span) (x : Int)
    (newclip : ClipBuffer) : narrower (portal_step s p sp x newclip) newclip := by
  unfold portal_step
  split
  · exact narrower_refl newclip
  · exact set_clip_narrower newclip x _ _

theorem wall_columns_narrower (s : Sector) (w : Wall) (p : Player) (sp : Span)
    (xs : List Int) (clip : ClipBuffer) :
    narrower (wall_columns s w p sp xs clip).2 clip := by
  induction xs generalizing clip with
  | nil => exact narrower_refl clip
  | cons x xs ih =>
    simp only [wall_columns]
    exact narrower_trans (ih _) (column_step_narrower s w p sp x clip)

theorem portal_clip_narrower (s : Sector) (p : Player) (sp : Span)
    (xs : List Int) (newclip : ClipBuffer) :
    narrower (portal_clip s p sp xs newclip) newclip := by
  induction xs generalizing newclip with
  | nil => exact narrower_refl newclip
  | cons x xs ih =>
    simp only [portal_clip]
    exact narrower_trans (ih _) (portal_step_narrower s p sp x newclip)

/-! ## Unfolding the wall loop and the recursion -/

theorem render_walls_nil (child : Int → ClipBuffer → Option (List Event)) (W : World)
    (p : Player) (s : Sector) (d : Int) (clip : ClipBuffer) :
    render_walls child W p s d [] clip = some ([], clip) := by
  simp only [render_walls]

theorem render_walls_cons (child : Int → ClipBuffer → Option (List Event)) (W : World)
    (p : Player) (s : Sector) (d : Int) (i : Int) (is : List Int) (clip : ClipBuffer) :
    render_walls child W p s d (i :: is) clip =
      (render_wall child W p s d i clip).bind fun r1 =>
        (render_walls child W p s d is r1.2).map fun r2 => (r1.1 ++ r2.1, r2.2) := by
  simp only [render_walls]

theorem render_sector_zero (W : World) (p : Player) (sid : Int) (clip : ClipBuffer) (d : Int) :
    render_sector 0 W p sid clip d = none := by
  simp only [render_sector]

theorem render_sector_succ (fuel : Nat) (W : World) (p : Player) (sid : Int)
    (clip : ClipBuffer) (d : Int) :
    render_sector (fuel + 1) W p sid clip d =
      if d > MAX_RECURSION then some ([], clip)
      else
        render_walls
          (fun sid' newclip => (render_sector fuel W p sid' newclip (d + 1)).map Prod.fst)
          W p (W.sectors sid) d (range_incl 0 ((W.sectors sid).num_walls - 1)) clip := by
  simp only [render_sector]

/-- What one iteration of the wall loop does, by cases on the projection of the wall and on
the outcome of the recursive invocation. -/
theorem render_wall_cases (child : Int → ClipBuffer → Option (List Event)) (W : World)
    (p : Player) (s : Sector) (d : Int) (i : Int) (clip : ClipBuffer)
    (r : List Event × ClipBuffer) (h : render_wall child W p s d i clip = some r) :
    (project_wall p (W.walls (s.start_wall + i)) = none ∧ r = ([], clip)) ∨
    ∃ sp, project_wall p (W.walls (s.start_wall + i)) = some sp ∧
      (((W.walls (s.start_wall + i)).portal_sector = -1 ∧
          r = wall_columns s (W.walls (s.start_wall + i)) p sp (range_incl sp.x1 sp.x2) clip) ∨
       ((W.walls (s.start_wall + i)).portal_sector ≠ -1 ∧
          ∃ sub,
            child (W.walls (s.start_wall + i)).portal_sector
              (portal_clip s p sp (range_incl sp.x1 sp.x2)
                (wall_columns s (W.walls (s.start_wall + i)) p sp
                  (range_incl sp.x1 sp.x2) clip).2) = some sub ∧
            r = ((wall_columns s (W.walls (s.start_wall + i)) p sp
                    (range_incl sp.x1 sp.x2) clip).1 ++
                  Event.call (W.walls (s.start_wall + i)).portal_sector
                    (wall_columns s (W.walls (s.start_wall + i)) p sp
                      (range_incl sp.x1 sp.x2) clip).2
                    (portal_clip s p sp (range_incl sp.x1 sp.x2)
                      (wall_columns s (W.walls (s.start_wall + i)) p sp
                        (range_incl sp.x1 sp.x2) clip).2) (d + 1) :: sub,
                 (wall_columns s (W.walls (s.start_wall + i)) p sp
                    (range_incl sp.x1 sp.x2) clip).2))) := by
  unfold render_wall at h
  dsimp only at h
  split at h
  · left
    rename_i hp
    exact ⟨hp, by simpa using h.symm⟩
  · right
    rename_i sp hp
    refine ⟨sp, hp, ?_⟩
    split at h
    · right
      rename_i hportal
      refine ⟨hportal, ?_⟩
      split at h
      · exact absurd h (by simp)
      · rename_i sub hsub
        exact ⟨sub, hsub, by simpa using h.symm⟩
    · left
      rename_i hportal
      exact ⟨by simpa using hportal, by simpa using h.symm⟩

theorem render_wall_narrower (child : Int → ClipBuffer → Option (List Event)) (W : World)
    (p : Player) (s : Sector) (d : Int) (i : Int) (clip : ClipBuffer)
    (r : List Event × ClipBuffer) (h : render_wall child W p s d i clip = some r) :
    narrower r.2 clip := by
  rcases render_wall_cases child W p s d i clip r h with ⟨_, rfl⟩ | ⟨sp, _, ⟨_, rfl⟩ | ⟨_, sub, _, rfl⟩⟩
  · exact narrower_refl clip
  · exact wall_columns_narrower _ _ _ _ _ _
  · exact wall_columns_narrower _ _ _ _ _ _

theorem render_walls_narrower (child : Int → ClipBuffer → Option (List Event)) (W : World)
    (p : Player) (s : Sector) (d : Int) (is : List Int) (clip : ClipBuffer)
    (r : List Event × ClipBuffer) (h : render_walls child W p s d is clip = some r) :
    narrower r.2 clip := by
  induction is generalizing clip r with
  | nil =>
    rw [render_walls_nil] at h
    cases h
    exact narrower_refl clip
  | cons i is ih =>
    rw [render_walls_cons] at h
    cases h1 : render_wall child W p s d i clip with
    | none => rw [h1] at h; exact absurd h (by simp)
    | some r1 =>
      rw [h1] at h
      simp only [Option.some_bind] at h
      cases h2 : render_walls child W p s d is r1.2 with
      | none => rw [h2] at h; exact absurd h (by simp)
      | some r2 =>
        rw [h2] at h
        simp only [Option.map_some', Option.some.injEq] at h
        subst h
        exact narrower_trans (ih r1.2 r2 h2) (render_wall_narrower _ _ _ _ _ _ _ _ h1)

/-- Every event of the wall loop comes from one iteration, run on a buffer at least as
narrow as the one the loop started with. -/
theorem render_walls_mem (child : Int → ClipBuffer → Option (List Event)) (W : World)
    (p : Player) (s : Sector) (d : Int) (is : List Int) (clip : ClipBuffer)
    (r : List Event × ClipBuffer) (h : render_walls child W p s d is clip = some r)
    (e : Event) (he : e ∈ r.1) :
    ∃ i ∈ is, ∃ clip_i r1, narrower clip_i clip ∧
      render_wall child W p s d i clip_i = some r1 ∧ e ∈ r1.1 := by
  induction is generalizing clip r with
  | nil =>
    rw [render_walls_nil] at h
    cases h
    exact absurd he (by simp)
  | cons i is ih =>
    rw [render_walls_cons] at h
    cases h1 : render_wall child W p s d i clip with
    | none => rw [h1] at h; exact absurd h (by simp)
    | some r1 =>
      rw [h1] at h
      simp only [Option.some_bind] at h
      cases h2 : render_walls child W p s d is r1.2 with
      | none => rw [h2] at h; exact absurd h (by simp)
      | some r2 =>
        rw [h2] at h
        simp only [Option.map_some', Option.some.injEq] at h
        subst h
        rcases List.mem_append.mp he with he1 | he2
        · exact ⟨i, List.mem_cons_self _ _, clip, r1, narrower_refl clip, h1, he1⟩
        · obtain ⟨j, hj, cj, rj, hn, hr, hin⟩ := ih r1.2 r2 h2 he2
          exact ⟨j, List.mem_cons_of_mem _ hj, cj, rj,
            narrower_trans hn (render_wall_narrower _ _ _ _ _ _ _ _ h1), hr, hin⟩

theorem column_step_portal (s : Sector) (w : Wall) (p : Player) (sp : Span) (x : Int)
    (clip : ClipBuffer) (hw : w.portal_sector ≠ -1) : (column_step s w p sp x clip).2 = clip := by
  unfold column_step
  split
  · rfl
  · simp only [hw, if_false]

/-- The column loop of a portal wall leaves the caller's buffer as it was (line 182). -/
theorem wall_columns_portal (s : Sector) (w : Wall) (p : Player) (sp : Span)
    (xs : List Int) (clip : ClipBuffer) (hw : w.portal_sector ≠ -1) :
    (wall_columns s w p sp xs clip).2 = clip := by
  induction xs generalizing clip with
  | nil => simp only [wall_columns]
  | cons x xs ih =>
    simp only [wall_columns]
    rw [column_step_portal s w p sp x clip hw]
    exact ih clip

/-! ## Termination -/

theorem render_wall_some (child : Int → ClipBuffer → Option (List Event)) (W : World)
    (p : Player) (s : Sector) (d : Int) (i : Int) (clip : ClipBuffer)
    (hc : ∀ sid nc, ∃ sub, child sid nc = some sub) :
    ∃ r, render_wall child W p s d i clip = some r := by
  unfold render_wall
  dsimp only
  split
  · exact ⟨_, rfl⟩
  · split
    · rename_i sp _ _
      obtain ⟨sub, hsub⟩ := hc (W.walls (s.start_wall + i)).portal_sector
        (portal_clip s p sp (range_incl sp.x1 sp.x2)
          (wall_columns s (W.walls (s.start_wall + i)) p sp (range_incl sp.x1 sp.x2) clip).2)
      rw [hsub]
      exact ⟨_, rfl⟩
    · exact ⟨_, rfl⟩

theorem render_walls_some (child : Int → ClipBuffer → Option (List Event)) (W : World)
    (p : Player) (s : Sector) (d : Int) (is : List Int) (clip : ClipBuffer)
    (hc : ∀ sid nc, ∃ sub, child sid nc = some sub) :
    ∃ r, render_walls child W p s d is clip = some r := by
  induction is generalizing clip with
  | nil => exact ⟨_, render_walls_nil _ _ _ _ _ _⟩
  | cons i is ih =>
    obtain ⟨r1, h1⟩ := render_wall_some child W p s d i clip hc
    obtain ⟨r2, h2⟩ := ih r1.2
    refine ⟨(r1.1 ++ r2.1, r2.2), ?_⟩
    rw [render_walls_cons, h1]
    simp only [Option.some_bind, h2, Option.map_some']

/-- With a budget above `MAX_RECURSION + 1 - recursion` the invocation returns. -/
theorem render_sector_some (fuel : Nat) (W : World) (p : Player) (sid : Int)
    (clip : ClipBuffer) (d : Int) (hf : (MAX_RECURSION + 1 - d).toNat < fuel) :
    ∃ r, render_sector fuel W p sid clip d = some r := by
  induction fuel generalizing sid clip d with
  | zero => exact absurd hf (by omega)
  | succ fuel ih =>
    rw [render_sector_succ]
    by_cases hd : d > MAX_RECURSION
    · rw [if_pos hd]
      exact ⟨_, rfl⟩
    · rw [if_neg hd]
      apply render_walls_some
      intro sid' nc
      have hlt : (MAX_RECURSION + 1 - (d + 1)).toNat < fuel := by
        have : d ≤ MAX_RECURSION := not_lt.mp hd
        omega
      obtain ⟨r, hr⟩ := ih sid' nc (d + 1) hlt
      exact ⟨r.1, by rw [hr]; rfl⟩

/-- Above the needed budget the result does not depend on the budget. -/
theorem render_sector_fuel_succ (fuel : Nat) (W : World) (p : Player) (sid : Int)
    (clip : ClipBuffer) (d : Int) (hf : (MAX_RECURSION + 1 - d).toNat < fuel) :
    render_sector (fuel + 1) W p sid clip d = render_sector fuel W p sid clip d := by
  induction fuel generalizing sid clip d with
  | zero => exact absurd hf (by omega)
  | succ fuel ih =>
    rw [render_sector_succ (fuel + 1), render_sector_succ fuel]
    by_cases hd : d > MAX_RECURSION
    · rw [if_pos hd, if_pos hd]
    · rw [if_neg hd, if_neg hd]
      have hlt : (MAX_RECURSION + 1 - (d + 1)).toNat < fuel := by
        have : d ≤ MAX_RECURSION := not_lt.mp hd
        omega
      have hfun : (fun sid' newclip =>
            (render_sector (fuel + 1) W p sid' newclip (d + 1)).map Prod.fst) =
          (fun sid' newclip => (render_sector fuel W p sid' newclip (d + 1)).map Prod.fst) := by
        funext sid' nc
        rw [ih sid' nc (d + 1) hlt]
      rw [hfun]

theorem render_sector_fuel_add (fuel k : Nat) (W : World) (p : Player) (sid : Int)
    (clip : ClipBuffer) (d : Int) (hf : (MAX_RECURSION + 1 - d).toNat < fuel) :
    render_sector (fuel + k) W p sid clip d = render_sector fuel W p sid clip d := by
  induction k with
  | zero => rfl
  | succ k ih =>
    rw [← Nat.add_assoc, render_sector_fuel_succ (fuel + k) W p sid clip d (by omega), ih]

/-- C1. Termination of `render_sector`: for every world (cyclic portal graphs included),
every camera pose, every clip buffer and every starting depth, the invocation returns a
result once the call-nesting budget reaches `MAX_RECURSION + 2 - recursion`, and every larger
budget gives that same result. -/
theorem render_sector_terminates (W : World) (p : Player) (sid : Int) (clip : ClipBuffer)
    (d : Int) : ∃ r, ∀ k, render_sector (fuel_for d + k) W p sid clip d = some r := by
  have hf : (MAX_RECURSION + 1 - d).toNat < fuel_for d := by
    unfold fuel_for
    omega
  obtain ⟨r, hr⟩ := render_sector_some (fuel_for d) W p sid clip d hf
  exact ⟨r, fun k => by rw [render_sector_fuel_add (fuel_for d) k W p sid clip d hf, hr]⟩

/-! ## Where the events of an invocation come from -/

theorem events_of_some (fuel : Nat) (W : World) (p : Player) (sid : Int) (clip : ClipBuffer)
    (d : Int) (r : List Event × ClipBuffer) (h : render_sector fuel W p sid clip d = some r) :
    events fuel W p sid clip d = r.1 := by
  unfold events
  rw [h]

theorem events_eq_map (fuel : Nat) (W : World) (p : Player) (sid : Int) (clip : ClipBuffer)
    (d : Int) (sub : List Event)
    (h : (render_sector fuel W p sid clip d).map Prod.fst = some sub) :
    events fuel W p sid clip d = sub := by
  unfold events
  cases hr : render_sector fuel W p sid clip d with
  | none => rw [hr] at h; exact absurd h (by simp)
  | some r =>
    rw [hr] at h
    simpa using h

/-- Every event of an invocation is a line of the column loop of one of the sector's walls,
or the record of the recursive invocation made for a portal wall, or an event of that nested
invocation; the wall is processed on a buffer at least as narrow as the one passed in. -/
theorem mem_events (fuel : Nat) (W : World) (p : Player) (sid : Int) (clip : ClipBuffer)
    (d : Int) (e : Event) (he : e ∈ events fuel W p sid clip d) :
    ∃ fuel1, fuel = fuel1 + 1 ∧ d ≤ MAX_RECURSION ∧
      ∃ i ∈ range_incl 0 ((W.sectors sid).num_walls - 1), ∃ clip_i sp,
        narrower clip_i clip ∧
        project_wall p (W.walls ((W.sectors sid).start_wall + i)) = some sp ∧
        (e ∈ (wall_columns (W.sectors sid) (W.walls ((W.sectors sid).start_wall + i)) p sp
                (range_incl sp.x1 sp.x2) clip_i).1 ∨
         ((W.walls ((W.sectors sid).start_wall + i)).portal_sector ≠ -1 ∧
          (e = Event.call (W.walls ((W.sectors sid).start_wall + i)).portal_sector clip_i
                (portal_clip (W.sectors sid) p sp (range_incl sp.x1 sp.x2) clip_i) (d + 1) ∨
           e ∈ events fuel1 W p (W.walls ((W.sectors sid).start_wall + i)).portal_sector
                (portal_clip (W.sectors sid) p sp (range_incl sp.x1 sp.x2) clip_i) (d + 1)))) := by
  cases fuel with
  | zero =>
    unfold events at he
    rw [render_sector_zero] at he
    exact absurd he (by simp)
  | succ fuel1 =>
    refine ⟨fuel1, rfl, ?_⟩
    unfold events at he
    rw [render_sector_succ] at he
    by_cases hd : d > MAX_RECURSION
    · rw [if_pos hd] at he
      exact absurd he (by simp)
    · rw [if_neg hd] at he
      refine ⟨not_lt.mp hd, ?_⟩
      cases hr : render_walls
          (fun sid' newclip => (render_sector fuel1 W p sid' newclip (d + 1)).map Prod.fst)
          W p (W.sectors sid) d (range_incl 0 ((W.sectors sid).num_walls - 1)) clip with
      | none => rw [hr] at he; exact absurd he (by simp)
      | some r =>
        rw [hr] at he
        obtain ⟨i, hi, clip_i, r1, hn, h1, hin⟩ := render_walls_mem _ _ _ _ _ _ _ _ hr e he
        refine ⟨i, hi, clip_i, ?_⟩
        rcases render_wall_cases _ _ _ _ _ _ _ _ h1 with
          ⟨_, rfl⟩ | ⟨sp, hsp, ⟨_, rfl⟩ | ⟨hportal, sub, hsub, rfl⟩⟩
        · exact absurd hin (by simp)
        · exact ⟨sp, hn, hsp, Or.inl hin⟩
        · refine ⟨sp, hn, hsp, ?_⟩
          rw [wall_columns_portal _ _ _ _ _ _ hportal] at hsub hin
          rcases List.mem_append.mp hin with h | h
          · exact Or.inl h
          · rcases List.mem_cons.mp h with h | h
            · exact Or.inr ⟨hportal, Or.inl h⟩
            · refine Or.inr ⟨hportal, Or.inr ?_⟩
              rw [events_eq_map _ _ _ _ _ _ _ hsub]
              exact h

/-- Every event of one column step is a line of `draw_column` at that column, against the
range the buffer holds there. -/
theorem mem_column_step (s : Sector) (w : Wall) (p : Player) (sp : Span) (x : Int)
    (clip : ClipBuffer) (e : Event) (he : e ∈ (column_step s w p sp x clip).1) :
    ∃ cy fy, column_rows s p sp x = some (cy, fy) ∧ e ∈ draw_column s w x cy fy (clip x) := by
  unfold column_step at he
  split at he
  · exact absurd he (by simp)
  · rename_i cy fy h
    exact ⟨cy, fy, h, he⟩

/-- Every event of the column loop is a line of `draw_column` at one of the columns, against
a range at least as narrow as the one the buffer held there when the loop started. -/
theorem mem_wall_columns (s : Sector) (w : Wall) (p : Player) (sp : Span) (xs : List Int)
    (clip : ClipBuffer) (e : Event) (he : e ∈ (wall_columns s w p sp xs clip).1) :
    ∃ x ∈ xs, ∃ cy fy c, column_rows s p sp x = some (cy, fy) ∧
      (clip x).top ≤ c.top ∧ c.bottom ≤ (clip x).bottom ∧ e ∈ draw_column s w x cy fy c := by
  induction xs generalizing clip with
  | nil =>
    simp only [wall_columns] at he
    exact absurd he (by simp)
  | cons x xs ih =>
    simp only [wall_columns] at he
    rcases List.mem_append.mp he with h | h
    · obtain ⟨cy, fy, hrows, hin⟩ := mem_column_step s w p sp x clip e h
      exact ⟨x, List.mem_cons_self _ _, cy, fy, clip x, hrows, le_refl _, le_refl _, hin⟩
    · obtain ⟨x', hx', cy, fy, c, hrows, h1, h2, hin⟩ := ih _ h
      have hn := column_step_narrower s w p sp x clip x'
      exact ⟨x', List.mem_cons_of_mem _ hx', cy, fy, c, hrows, le_trans hn.1 h1,
        le_trans h2 hn.2, hin⟩

/-- The events `draw_column` can produce. -/
theorem mem_draw_column (s : Sector) (w : Wall) (x cy fy : Int) (c : ClipRange) (e : Event)
    (he : e ∈ draw_column s w x cy fy c) :
    (0 < max cy c.top ∧
      e = Event.line SegKind.ceiling x 0 (max cy c.top - 1)
            (red s.ceil_color) (green s.ceil_color) (blue s.ceil_color)) ∨
    (min fy c.bottom < SCREEN_H - 1 ∧
      e = Event.line SegKind.floor x (min fy c.bottom + 1) (SCREEN_H - 1)
            (red s.floor_color) (green s.floor_color) (blue s.floor_color)) ∨
    (max cy c.top < min fy c.bottom ∧
      e = Event.line SegKind.wall x (max cy c.top) (min fy c.bottom)
            (red w.color) (green w.color) (blue w.color)) := by
  have hmax : (if cy > c.top then cy else c.top) = max cy c.top := by
    split <;> omega
  have hmin : (if fy < c.bottom then fy else c.bottom) = min fy c.bottom := by
    split <;> omega
  unfold draw_column at he
  simp only [hmax, hmin, List.mem_append] at he
  rcases he with (h | h) | h
  · left
    split at h
    · rename_i hc
      exact ⟨hc, by simpa using h⟩
    · exact absurd h (by simp)
  · right; left
    split at h
    · rename_i hc
      exact ⟨hc, by simpa using h⟩
    · exact absurd h (by simp)
  · right; right
    split at h
    · rename_i hc
      exact ⟨hc, by simpa using h⟩
    · exact absurd h (by simp)

theorem screen_span_span (v : ℚ × ℚ × ℚ × ℚ) (sp : Span) (h : screen_span v = some sp) :
    0 ≤ sp.x1 ∧ sp.x1 ≤ sp.x2 ∧ sp.x2 < SCREEN_W := by
  unfold screen_span at h
  dsimp only at h
  generalize project_x v.1 v.2.1 = a at h
  generalize project_x v.2.2.1 v.2.2.2 = b at h
  unfold SCREEN_W at h ⊢
  by_cases hab : a = b
  · rw [if_pos hab] at h
    exact absurd h (by simp)
  · rw [if_neg hab] at h
    by_cases hlt : b < a
    · rw [if_pos hlt] at h
      dsimp only at h
      by_cases hoff : a < 0 ∨ b ≥ 960
      · rw [if_pos hoff] at h
        exact absurd h (by simp)
      · rw [if_neg hoff] at h
        simp only [Option.some.injEq] at h
        subst h
        dsimp only
        split <;> split <;> omega
    · rw [if_neg hlt] at h
      dsimp only at h
      by_cases hoff : b < 0 ∨ a ≥ 960
      · rw [if_pos hoff] at h
        exact absurd h (by simp)
      · rw [if_neg hoff] at h
        simp only [Option.some.injEq] at h
        subst h
        dsimp only
        split <;> split <;> omega

/-- A wall that survives lines 103-133 has a span inside the screen. -/
theorem project_wall_span (p : Player) (w : Wall) (sp : Span)
    (h : project_wall p w = some sp) : 0 ≤ sp.x1 ∧ sp.x1 ≤ sp.x2 ∧ sp.x2 < SCREEN_W := by
  unfold project_wall at h
  dsimp only at h
  split at h
  · exact absurd h (by simp)
  · exact screen_span_span _ sp h

/-- Induction over the nesting of invocations: a property of events, relative to the buffer
and depth of the invocation, holds of every event of an invocation as soon as it holds of
the column-loop lines and of the call records of each wall, and passes from a nested
invocation to its caller. -/
theorem events_induction (W : World) (p : Player) (Q : ClipBuffer → Int → Event → Prop)
    (hline : ∀ (s : Sector) (w : Wall) (sp : Span) (clip clip_i : ClipBuffer) (d : Int)
      (e : Event), narrower clip_i clip → project_wall p w = some sp →
      e ∈ (wall_columns s w p sp (range_incl sp.x1 sp.x2) clip_i).1 → Q clip d e)
    (hcall : ∀ (s : Sector) (sid1 : Int) (sp : Span) (clip clip_i : ClipBuffer) (d : Int),
      d ≤ MAX_RECURSION → narrower clip_i clip →
      Q clip d (Event.call sid1 clip_i
        (portal_clip s p sp (range_incl sp.x1 sp.x2) clip_i) (d + 1)))
    (hsub : ∀ (s : Sector) (sp : Span) (clip clip_i : ClipBuffer) (d : Int) (e : Event),
      d ≤ MAX_RECURSION → narrower clip_i clip →
      Q (portal_clip s p sp (range_incl sp.x1 sp.x2) clip_i) (d + 1) e → Q clip d e)
    (fuel : Nat) (sid : Int) (clip : ClipBuffer) (d : Int) (e : Event)
    (he : e ∈ events fuel W p sid clip d) : Q clip d e := by
  induction fuel generalizing sid clip d with
  | zero =>
    obtain ⟨fuel1, hf, _⟩ := mem_events 0 W p sid clip d e he
    exact absurd hf (by omega)
  | succ fuel ih =>
    obtain ⟨fuel1, hf, hd, i, _, clip_i, sp, hn, hsp, hcases⟩ :=
      mem_events (fuel + 1) W p sid clip d e he
    have hfuel : fuel1 = fuel := by omega
    subst hfuel
    rcases hcases with h | ⟨_, h | h⟩
    · exact hline _ _ sp clip clip_i d e hn hsp h
    · rw [h]
      exact hcall _ _ sp clip clip_i d hd hn
    · exact hsub _ sp clip clip_i d e hd hn (ih _ _ _ h)

/-- The lines of the column loop of a projected wall: each is one of the three runs of
`draw_column`, at a column of the (on-screen) span, against a range at least as narrow as
the one the buffer held at that column. -/
theorem mem_wall_columns_line (s : Sector) (w : Wall) (p : Player) (sp : Span)
    (clip : ClipBuffer) (e : Event) (hsp : project_wall p w = some sp)
    (he : e ∈ (wall_columns s w p sp (range_incl sp.x1 sp.x2) clip).1) :
    ∃ (x cy fy : Int) (c : ClipRange), 0 ≤ x ∧ x < SCREEN_W ∧ sp.x1 ≤ x ∧ x ≤ sp.x2 ∧
      (clip x).top ≤ c.top ∧ c.bottom ≤ (clip x).bottom ∧
      ((0 < max cy c.top ∧
          e = Event.line SegKind.ceiling x 0 (max cy c.top - 1)
                (red s.ceil_color) (green s.ceil_color) (blue s.ceil_color)) ∨
       (min fy c.bottom < SCREEN_H - 1 ∧
          e = Event.line SegKind.floor x (min fy c.bottom + 1) (SCREEN_H - 1)
                (red s.floor_color) (green s.floor_color) (blue s.floor_color)) ∨
       (max cy c.top < min fy c.bottom ∧
          e = Event.line SegKind.wall x (max cy c.top) (min fy c.bottom)
                (red w.color) (green w.color) (blue w.color))) := by
  obtain ⟨x, hx, cy, fy, c, _, h1, h2, hin⟩ := mem_wall_columns s w p sp _ clip e he
  have hb := project_wall_span p w sp hsp
  have hx' := (mem_range_incl _ _ _).mp hx
  exact ⟨x, cy, fy, c, by omega, by omega, hx'.1, hx'.2, h1, h2,
    mem_draw_column s w x cy fy c e hin⟩

/-! ## Events that are certainly produced -/

theorem render_walls_head (child : Int → ClipBuffer → Option (List Event)) (W : World)
    (p : Player) (s : Sector) (d : Int) (i : Int) (is : List Int) (clip : ClipBuffer)
    (r : List Event × ClipBuffer) (h : render_walls child W p s d (i :: is) clip = some r) :
    ∃ r1, render_wall child W p s d i clip = some r1 ∧ ∀ e ∈ r1.1, e ∈ r.1 := by
  rw [render_walls_cons] at h
  cases h1 : render_wall child W p s d i clip with
  | none => rw [h1] at h; exact absurd h (by simp)
  | some r1 =>
    rw [h1] at h
    simp only [Option.some_bind] at h
    cases h2 : render_walls child W p s d is r1.2 with
    | none => rw [h2] at h; exact absurd h (by simp)
    | some r2 =>
      rw [h2] at h
      simp only [Option.map_some', Option.some.injEq] at h
      subst h
      exact ⟨r1, rfl, fun e he => List.mem_append_left _ he⟩

theorem render_walls_sub_of_mem (child : Int → ClipBuffer → Option (List Event)) (W : World)
    (p : Player) (s : Sector) (d : Int) (is : List Int) (clip : ClipBuffer)
    (r : List Event × ClipBuffer) (h : render_walls child W p s d is clip = some r)
    (i : Int) (hi : i ∈ is) :
    ∃ clip_i r1, narrower clip_i clip ∧ render_wall child W p s d i clip_i = some r1 ∧
      ∀ e ∈ r1.1, e ∈ r.1 := by
  induction is generalizing clip r with
  | nil => exact absurd hi (by simp)
  | cons j js ih =>
    rw [render_walls_cons] at h
    cases h1 : render_wall child W p s d j clip with
    | none => rw [h1] at h; exact absurd h (by simp)
    | some r1 =>
      rw [h1] at h
      simp only [Option.some_bind] at h
      cases h2 : render_walls child W p s d js r1.2 with
      | none => rw [h2] at h; exact absurd h (by simp)
      | some r2 =>
        rw [h2] at h
        simp only [Option.map_some', Option.some.injEq] at h
        subst h
        rcases List.mem_cons.mp hi with hij | hij
        · subst hij
          exact ⟨clip, r1, narrower_refl clip, h1, fun e he => List.mem_append_left _ he⟩
        · obtain ⟨ci, ri, hn, hr, hsub⟩ := ih r1.2 r2 h2 hij
          exact ⟨ci, ri, narrower_trans hn (render_wall_narrower _ _ _ _ _ _ _ _ h1), hr,
            fun e he => List.mem_append_right _ (hsub e he)⟩

/-- A projected wall contributes the lines of its column loop; a projected portal wall also
contributes the record of its recursive invocation and everything that invocation draws. -/
theorem render_wall_contains (child : Int → ClipBuffer → Option (List Event)) (W : World)
    (p : Player) (s : Sector) (d : Int) (i : Int) (clip : ClipBuffer)
    (r : List Event × ClipBuffer) (h : render_wall child W p s d i clip = some r)
    (sp : Span) (hsp : project_wall p (W.walls (s.start_wall + i)) = some sp) :
    (∀ e ∈ (wall_columns s (W.walls (s.start_wall + i)) p sp (range_incl sp.x1 sp.x2) clip).1,
        e ∈ r.1) ∧
    ((W.walls (s.start_wall + i)).portal_sector ≠ -1 →
      Event.call (W.walls (s.start_wall + i)).portal_sector clip
          (portal_clip s p sp (range_incl sp.x1 sp.x2) clip) (d + 1) ∈ r.1 ∧
      ∃ sub, child (W.walls (s.start_wall + i)).portal_sector
            (portal_clip s p sp (range_incl sp.x1 sp.x2) clip) = some sub ∧
          ∀ e ∈ sub, e ∈ r.1) := by
  rcases render_wall_cases child W p s d i clip r h with
    ⟨hnone, _⟩ | ⟨sp1, hsp1, ⟨hsolid, rfl⟩ | ⟨hportal, sub, hsub, rfl⟩⟩
  · rw [hnone] at hsp
    exact absurd hsp (by simp)
  · rw [hsp1] at hsp
    cases hsp
    exact ⟨fun e he => he, fun hne => absurd hsolid hne⟩
  · rw [hsp1] at hsp
    cases hsp
    rw [wall_columns_portal _ _ _ _ _ _ hportal] at hsub
    refine ⟨fun e he => List.mem_append_left _ he, fun _ => ⟨?_, sub, hsub, ?_⟩⟩
    · rw [wall_columns_portal _ _ _ _ _ _ hportal]
      exact List.mem_append_right _ (List.mem_cons_self _ _)
    · intro e he
      exact List.mem_append_right _ (List.mem_cons_of_mem _ he)

/-- With enough budget, an invocation at a depth within the cap runs the wall loop. -/
theorem render_sector_walls (fuel : Nat) (W : World) (p : Player) (sid : Int)
    (clip : ClipBuffer) (d : Int) (hd : d ≤ MAX_RECURSION)
    (hf : (MAX_RECURSION + 1 - d).toNat < fuel + 1) :
    ∃ r, render_walls
          (fun sid1 newclip => (render_sector fuel W p sid1 newclip (d + 1)).map Prod.fst)
          W p (W.sectors sid) d (range_incl 0 ((W.sectors sid).num_walls - 1)) clip = some r ∧
      events (fuel + 1) W p sid clip d = r.1 := by
  obtain ⟨r, hr⟩ := render_sector_some (fuel + 1) W p sid clip d hf
  refine ⟨r, ?_, events_of_some _ _ _ _ _ _ _ hr⟩
  rw [render_sector_succ, if_neg (not_lt.mpr hd)] at hr
  exact hr

/-- The first wall of a sector is processed on the buffer passed in: the lines of its column
loop are events of the invocation. -/
theorem events_first_wall (fuel : Nat) (W : World) (p : Player) (sid : Int)
    (clip : ClipBuffer) (d : Int) (hd : d ≤ MAX_RECURSION)
    (hf : (MAX_RECURSION + 1 - d).toNat < fuel + 1) (hn : 1 ≤ (W.sectors sid).num_walls)
    (sp : Span) (hsp : project_wall p (W.walls ((W.sectors sid).start_wall + 0)) = some sp) :
    (∀ e ∈ (wall_columns (W.sectors sid) (W.walls ((W.sectors sid).start_wall + 0)) p sp
              (range_incl sp.x1 sp.x2) clip).1, e ∈ events (fuel + 1) W p sid clip d) ∧
    ((W.walls ((W.sectors sid).start_wall + 0)).portal_sector ≠ -1 →
      Event.call (W.walls ((W.sectors sid).start_wall + 0)).portal_sector clip
          (portal_clip (W.sectors sid) p sp (range_incl sp.x1 sp.x2) clip) (d + 1)
        ∈ events (fuel + 1) W p sid clip d ∧
      ∀ e ∈ events fuel W p (W.walls ((W.sectors sid).start_wall + 0)).portal_sector
              (portal_clip (W.sectors sid) p sp (range_incl sp.x1 sp.x2) clip) (d + 1),
        e ∈ events (fuel + 1) W p sid clip d) := by
  obtain ⟨r, hr, hev⟩ := render_sector_walls fuel W p sid clip d hd hf
  rw [range_incl_cons 0 _ (by omega)] at hr
  obtain ⟨r1, h1, hsub⟩ := render_walls_head _ _ _ _ _ _ _ _ _ hr
  obtain ⟨hl, hc⟩ := render_wall_contains _ _ _ _ _ _ _ _ h1 sp hsp
  rw [hev]
  refine ⟨fun e he => hsub e (hl e he), fun hne => ?_⟩
  obtain ⟨hcall, sub, hsubev, hin⟩ := hc hne
  refine ⟨hsub _ hcall, fun e he => hsub e (hin e ?_)⟩
  rw [events_eq_map _ _ _ _ _ _ _ hsubev] at he
  exact he

/-- Every projected portal wall of the sector gives rise to a recursive invocation, whose
events are events of the caller. -/
theorem events_portal_wall (fuel : Nat) (W : World) (p : Player) (sid : Int)
    (clip : ClipBuffer) (d : Int) (hd : d ≤ MAX_RECURSION)
    (hf : (MAX_RECURSION + 1 - d).toNat < fuel + 1) (i : Int)
    (hi : i ∈ range_incl 0 ((W.sectors sid).num_walls - 1))
    (sp : Span) (hsp : project_wall p (W.walls ((W.sectors sid).start_wall + i)) = some sp)
    (hne : (W.walls ((W.sectors sid).start_wall + i)).portal_sector ≠ -1) :
    ∃ clip_i, narrower clip_i clip ∧
      Event.call (W.walls ((W.sectors sid).start_wall + i)).portal_sector clip_i
          (portal_clip (W.sectors sid) p sp (range_incl sp.x1 sp.x2) clip_i) (d + 1)
        ∈ events (fuel + 1) W p sid clip d ∧
      ∀ e ∈ events fuel W p (W.walls ((W.sectors sid).start_wall + i)).portal_sector
              (portal_clip (W.sectors sid) p sp (range_incl sp.x1 sp.x2) clip_i) (d + 1),
        e ∈ events (fuel + 1) W p sid clip d := by
  obtain ⟨r, hr, hev⟩ := render_sector_walls fuel W p sid clip d hd hf
  obtain ⟨clip_i, r1, hnar, h1, hsub⟩ := render_walls_sub_of_mem _ _ _ _ _ _ _ _ hr i hi
  obtain ⟨_, hc⟩ := render_wall_contains _ _ _ _ _ _ _ _ h1 sp hsp
  obtain ⟨hcall, sub, hsubev, hin⟩ := hc hne
  rw [hev]
  refine ⟨clip_i, hnar, hsub _ hcall, fun e he => hsub e (hin e ?_)⟩
  rw [events_eq_map _ _ _ _ _ _ _ hsubev] at he
  exact he

theorem column_step_fst_congr (s : Sector) (w : Wall) (p : Player) (sp : Span) (x : Int)
    (clip clip1 : ClipBuffer) (h : clip1 x = clip x) :
    (column_step s w p sp x clip1).1 = (column_step s w p sp x clip).1 := by
  unfold column_step
  split
  · rfl
  · simp only [h]

theorem column_step_other (s : Sector) (w : Wall) (p : Player) (sp : Span) (x j : Int)
    (clip : ClipBuffer) (h : j ≠ x) : (column_step s w p sp x clip).2 j = clip j := by
  unfold column_step
  split
  · rfl
  · dsimp only
    split
    · simp only [set_clip, h, if_false]
    · rfl

/-- A column is visited once, so its lines are drawn against the range the buffer held at
that column when the loop started. -/
theorem wall_columns_contains (s : Sector) (w : Wall) (p : Player) (sp : Span)
    (xs : List Int) (clip : ClipBuffer) (hnd : xs.Nodup) (x : Int) (hx : x ∈ xs) (e : Event)
    (he : e ∈ (column_step s w p sp x clip).1) : e ∈ (wall_columns s w p sp xs clip).1 := by
  induction xs generalizing clip with
  | nil => exact absurd hx (by simp)
  | cons y ys ih =>
    simp only [wall_columns]
    rcases List.mem_cons.mp hx with hxy | hxy
    · subst hxy
      exact List.mem_append_left _ he
    · have hne : x ≠ y := by
        rintro rfl
        exact (List.nodup_cons.mp hnd).1 hxy
      apply List.mem_append_right
      apply ih _ (List.nodup_cons.mp hnd).2 hxy
      rw [column_step_fst_congr s w p sp x clip _ (column_step_other s w p sp y x clip hne)]
      exact he

theorem column_step_of_rows (s : Sector) (w : Wall) (p : Player) (sp : Span) (x : Int)
    (clip : ClipBuffer) (cy fy : Int) (h : column_rows s p sp x = some (cy, fy)) :
    (column_step s w p sp x clip).1 = draw_column s w x cy fy (clip x) := by
  unfold column_step
  rw [h]

theorem portal_step_other (s : Sector) (p : Player) (sp : Span) (x j : Int)
    (newclip : ClipBuffer) (h : j ≠ x) : portal_step s p sp x newclip j = newclip j := by
  unfold portal_step
  cases column_rows s p sp x with
  | none => rfl
  | some cf => simp only [set_clip, h, if_false]

theorem portal_clip_other (s : Sector) (p : Player) (sp : Span) (xs : List Int)
    (newclip : ClipBuffer) (j : Int) (h : j ∉ xs) :
    portal_clip s p sp xs newclip j = newclip j := by
  induction xs generalizing newclip with
  | nil => simp only [portal_clip]
  | cons x xs ih =>
    simp only [portal_clip]
    rw [ih _ (fun hj => h (List.mem_cons_of_mem _ hj))]
    exact portal_step_other s p sp x j newclip (fun hj => h (hj ▸ List.mem_cons_self _ _))

/-! ## Evaluating the conversion to `int` and the projection -/

/-- The tangent of half the field of view, `tan(90 * π / 360)`, is exactly `tan_half_fov`. -/
theorem tan_half_fov_exact : Real.tan (90 * Real.pi / 360) = ((tan_half_fov : ℚ) : ℝ) := by
  have h : (90 : ℝ) * Real.pi / 360 = Real.pi / 4 := by ring
  rw [h, Real.tan_pi_div_four]
  simp [tan_half_fov]

/-- An integer in the range of `int` converts to itself. -/
theorem to_int_intCast (n : Int) (hr : INT_MIN ≤ n ∧ n ≤ INT_MAX) : to_int (n : ℚ) = n := by
  have h1 : ((INT_MIN : Int) : ℚ) - 1 < (n : ℚ) := by
    have : ((INT_MIN : Int) : ℚ) ≤ (n : ℚ) := by exact_mod_cast hr.1
    linarith
  have h2 : (n : ℚ) < ((INT_MAX : Int) : ℚ) + 1 := by
    have : (n : ℚ) ≤ ((INT_MAX : Int) : ℚ) := by exact_mod_cast hr.2
    linarith
  unfold to_int
  rw [if_pos ⟨h1, h2⟩]
  split <;> simp

theorem to_int_eq (q : ℚ) (n : Int) (h : q = (n : ℚ)) (hr : INT_MIN ≤ n ∧ n ≤ INT_MAX) :
    to_int q = n := by
  rw [h]
  exact to_int_intCast n hr

theorem project_x_eq (vx vz : ℚ) (n : Int) (h : 480 + vx * 480 / vz = (n : ℚ))
    (hr : INT_MIN ≤ n ∧ n ≤ INT_MAX) : project_x vx vz = n := by
  unfold project_x
  refine to_int_eq _ n ?_ hr
  rw [← h]
  norm_num [scale_factor, tan_half_fov, SCREEN_W]

/-! ## The default map seen from the default pose -/

theorem init_wall0_span :
    project_wall init_player (init_map.walls 0) = some ⟨180, 780, -5, 8, 5, 8⟩ := by
  have e1 : project_x (-5) 8 = 180 := project_x_eq _ _ 180 (by norm_num) (by decide)
  have e2 : project_x 5 8 = 780 := project_x_eq _ _ 780 (by norm_num) (by decide)
  simp [project_wall, camera_space, init_player, init_map, near_plane, near_clip,
    clip_endpoint, screen_span]
  norm_num [e1, e2, SCREEN_W]

theorem init_wall3_span :
    project_wall init_player (init_map.walls 3) = some ⟨0, 180, -5, 1 / 10, -5, 8⟩ := by
  have e1 : project_x (-5) (1 / 10) = -23520 :=
    project_x_eq _ _ (-23520) (by norm_num) (by decide)
  have e2 : project_x (-5) 8 = 180 := project_x_eq _ _ 180 (by norm_num) (by decide)
  simp [project_wall, camera_space, init_player, init_map, near_plane, near_clip,
    clip_endpoint, screen_span]
  norm_num [e1, e2, SCREEN_W]

theorem init_wall4_span :
    project_wall init_player (init_map.walls 4) = some ⟨0, 180, -5, 1 / 10, -5, 8⟩ := by
  have e1 : project_x (-5) (1 / 10) = -23520 :=
    project_x_eq _ _ (-23520) (by norm_num) (by decide)
  have e2 : project_x (-5) 8 = 180 := project_x_eq _ _ 180 (by norm_num) (by decide)
  simp [project_wall, camera_space, init_player, init_map, near_plane, near_clip,
    clip_endpoint, screen_span]
  norm_num [e1, e2, SCREEN_W]

theorem turned_wall3_span : project_wall turned_player (init_map.walls 3) = none := by
  have e1 : project_x 5 2 = 1680 := project_x_eq _ _ 1680 (by norm_num) (by decide)
  have e2 : project_x 5 (1 / 10) = 24480 := project_x_eq _ _ 24480 (by norm_num) (by decide)
  simp [project_wall, camera_space, turned_player, init_map, near_plane, near_clip,
    clip_endpoint, screen_span]
  norm_num [e1, e2, SCREEN_W]

/-- In exact arithmetic the depth along the red wall is 8 at every column, so the projected
rows are the same at every column. -/
theorem red_wall_rows (x : Int) :
    column_rows (init_map.sectors 0) init_player ⟨180, 780, -5, 8, 5, 8⟩ x = some (240, 420) := by
  unfold column_rows
  dsimp only
  have hden : ¬ (|(5 : ℚ) * (1 / 8) - -5 * (1 / 8)| < denom_eps) := by
    norm_num [denom_eps, abs_of_pos]
  rw [if_neg hden]
  generalize max (0 : ℚ) (min 1 (((↑x - ↑SCREEN_W / 2) / scale_factor - -5 * (1 / 8)) /
    (5 * (1 / 8) - -5 * (1 / 8)))) = u
  have hcy : to_int ((SCREEN_H : ℚ) / 2 - ((init_map.sectors 0).ceil_h - init_player.z) *
      (scale_factor * (1 / 8 * (1 - u) + 1 / 8 * u))) = 240 := by
    refine to_int_eq _ _ ?_ (by decide)
    simp only [init_map, init_player, scale_factor, tan_half_fov, SCREEN_W, SCREEN_H, if_true]
    push_cast
    ring
  have hfy : to_int ((SCREEN_H : ℚ) / 2 - ((init_map.sectors 0).floor_h - init_player.z) *
      (scale_factor * (1 / 8 * (1 - u) + 1 / 8 * u))) = 420 := by
    refine to_int_eq _ _ ?_ (by decide)
    simp only [init_map, init_player, scale_factor, tan_half_fov, SCREEN_W, SCREEN_H, if_true]
    push_cast
    ring
  rw [hcy, hfy]

/-- Whatever buffer the invocation for sector 0 starts with, the lines `draw_column` gives
for the red wall at a column of its span, against the range the buffer holds there, are
events of the invocation. -/
theorem red_wall_events (fuel : Nat) (clip : ClipBuffer) (d : Int) (hd : d ≤ MAX_RECURSION)
    (hf : (MAX_RECURSION + 1 - d).toNat < fuel + 1) (x : Int) (h1 : 180 ≤ x) (h2 : x ≤ 780)
    (e : Event)
    (he : e ∈ draw_column (init_map.sectors 0) (init_map.walls 0) x 240 420 (clip x)) :
    e ∈ events (fuel + 1) init_map init_player 0 clip d := by
  have hsp : project_wall init_player
      (init_map.walls ((init_map.sectors 0).start_wall + 0)) = some ⟨180, 780, -5, 8, 5, 8⟩ := by
    have : (init_map.sectors 0).start_wall + 0 = 0 := by simp [init_map]
    rw [this]
    exact init_wall0_span
  have hn : 1 ≤ (init_map.sectors 0).num_walls := by simp [init_map]
  have key := (events_first_wall fuel init_map init_player 0 clip d hd hf hn _ hsp).1
  apply key
  have h0 : (init_map.sectors 0).start_wall + 0 = 0 := by simp [init_map]
  rw [h0]
  apply wall_columns_contains _ _ _ _ _ _ (range_incl_nodup _ _) x
    ((mem_range_incl _ _ _).mpr ⟨h1, h2⟩)
  rw [column_step_of_rows _ _ _ _ _ _ 240 420 (red_wall_rows x)]
  exact he

/-- The column loop only draws lines. -/
theorem wall_columns_lines (s : Sector) (w : Wall) (p : Player) (sp : Span) (xs : List Int)
    (clip : ClipBuffer) (e : Event) (he : e ∈ (wall_columns s w p sp xs clip).1) :
    ∃ k x y1 y2 r g b, e = Event.line k x y1 y2 r g b := by
  obtain ⟨x, _, cy, fy, c, _, _, _, hin⟩ := mem_wall_columns s w p sp xs clip e he
  rcases mem_draw_column s w x cy fy c e hin with ⟨_, h⟩ | ⟨_, h⟩ | ⟨_, h⟩
  · exact ⟨_, _, _, _, _, _, _, h⟩
  · exact ⟨_, _, _, _, _, _, _, h⟩
  · exact ⟨_, _, _, _, _, _, _, h⟩

/-- In the default map seen from the default pose, sector 1 starts with its portal wall:
an invocation for sector 1 at depth 16 invokes sector 0 at depth 17. -/
theorem sector1_call :
    Event.call 0 full_clip
        (portal_clip (init_map.sectors 1) init_player ⟨0, 180, -5, 1 / 10, -5, 8⟩
          (range_incl 0 180) full_clip) 17
      ∈ events 2 init_map init_player 1 full_clip 16 := by
  have h4 : (init_map.sectors 1).start_wall + 0 = 4 := by simp [init_map]
  have hsp : project_wall init_player
      (init_map.walls ((init_map.sectors 1).start_wall + 0)) =
        some ⟨0, 180, -5, 1 / 10, -5, 8⟩ := by
    rw [h4]
    exact init_wall4_span
  have hn : 1 ≤ (init_map.sectors 1).num_walls := by simp [init_map]
  have hp : (init_map.walls ((init_map.sectors 1).start_wall + 0)).portal_sector ≠ -1 := by
    rw [h4]
    simp [init_map]
  have key := ((events_first_wall 1 init_map init_player 1 full_clip 16
    (by decide) (by decide) hn _ hsp).2 hp).1
  have hps : (init_map.walls ((init_map.sectors 1).start_wall + 0)).portal_sector = 0 := by
    rw [h4]
    simp [init_map]
  rw [hps] at key
  exact key

/-- From any sector of a set closed under visible portals, the recursion reaches depth
`MAX_RECURSION + 1`. -/
theorem deep_call (W : World) (p : Player) (S : Int → Prop)
    (hS : ∀ sid, S sid → ∃ i ∈ range_incl 0 ((W.sectors sid).num_walls - 1), ∃ sp,
      project_wall p (W.walls ((W.sectors sid).start_wall + i)) = some sp ∧
      (W.walls ((W.sectors sid).start_wall + i)).portal_sector ≠ -1 ∧
      S (W.walls ((W.sectors sid).start_wall + i)).portal_sector)
    (n : Nat) (d : Int) (sid : Int) (clip : ClipBuffer) (hd : d + n = MAX_RECURSION)
    (hs : S sid) :
    ∃ sid1 c nc, Event.call sid1 c nc (MAX_RECURSION + 1) ∈ events (n + 2) W p sid clip d := by
  induction n generalizing d sid clip with
  | zero =>
    obtain ⟨i, hi, sp, hsp, hne, _⟩ := hS sid hs
    have hd0 : d = MAX_RECURSION := by simpa using hd
    obtain ⟨clip_i, _, hcall, _⟩ := events_portal_wall 1 W p sid clip d (by omega)
      (by subst hd0; decide) i hi sp hsp hne
    subst hd0
    exact ⟨_, _, _, hcall⟩
  | succ n ih =>
    obtain ⟨i, hi, sp, hsp, hne, hS1⟩ := hS sid hs
    have hle : d ≤ MAX_RECURSION := by
      have : (0 : Int) ≤ ((n + 1 : Nat) : Int) := Int.natCast_nonneg _
      omega
    have hf : (MAX_RECURSION + 1 - d).toNat < n + 2 + 1 := by
      push_cast at hd
      omega
    obtain ⟨clip_i, _, _, hsub⟩ := events_portal_wall (n + 2) W p sid clip d hle hf i hi sp hsp hne
    obtain ⟨sid1, c, nc, hin⟩ := ih (d + 1) _
      (portal_clip (W.sectors sid) p sp (range_incl sp.x1 sp.x2) clip_i)
      (by push_cast at hd ⊢; omega) hS1
    exact ⟨sid1, c, nc, hsub _ hin⟩

/-- In the default map seen from the default pose each of the two sectors shows its portal
to the other one. -/
theorem init_portals_visible (sid : Int) (hs : sid = 0 ∨ sid = 1) :
    ∃ i ∈ range_incl 0 ((init_map.sectors sid).num_walls - 1), ∃ sp,
      project_wall init_player (init_map.walls ((init_map.sectors sid).start_wall + i)) =
        some sp ∧
      (init_map.walls ((init_map.sectors sid).start_wall + i)).portal_sector ≠ -1 ∧
      ((init_map.walls ((init_map.sectors sid).start_wall + i)).portal_sector = 0 ∨
        (init_map.walls ((init_map.sectors sid).start_wall + i)).portal_sector = 1) := by
  rcases hs with rfl | rfl
  · refine ⟨3, (mem_range_incl _ _ _).mpr (by simp [init_map]),
      ⟨0, 180, -5, 1 / 10, -5, 8⟩, ?_, ?_, ?_⟩
    · have : (init_map.sectors 0).start_wall + 3 = 3 := by simp [init_map]
      rw [this]
      exact init_wall3_span
    · simp [init_map]
    · simp [init_map]
  · refine ⟨0, (mem_range_incl _ _ _).mpr (by simp [init_map]),
      ⟨0, 180, -5, 1 / 10, -5, 8⟩, ?_, ?_, ?_⟩
    · have : (init_map.sectors 1).start_wall + 0 = 4 := by simp [init_map]
      rw [this]
      exact init_wall4_span
    · simp [init_map]
    · simp [init_map]

/-! ## C2: depth of the invocations -/

/-- C2 (as stated, refuted). In the default map with the default pose, the pass started as
`render_sector(0, clip, 0)` makes an invocation with depth argument 17, which is greater
than `MAX_RECURSION`. -/
theorem depth_seventeen_reached :
    ∃ sid c nc, Event.call sid c nc 17 ∈ events 18 init_map init_player 0 full_clip 0 ∧
      ¬ ((17 : Int) ≤ MAX_RECURSION) := by
  obtain ⟨sid, c, nc, h⟩ := deep_call init_map init_player (fun sid => sid = 0 ∨ sid = 1)
    init_portals_visible 16 0 0 full_clip (by decide) (Or.inl rfl)
  exact ⟨sid, c, nc, h, by decide⟩

/-- C2 (as amended). For every world and camera pose, every recursive invocation made in a
render pass has a depth argument greater than the depth the pass started with and at most
`MAX_RECURSION + 1`; in a pass started at depth 0 no invocation has depth above 17. -/
theorem call_depth_bound (fuel : Nat) (W : World) (p : Player) (sid : Int) (clip : ClipBuffer)
    (d : Int) (sid1 : Int) (c nc : ClipBuffer) (d1 : Int)
    (h : Event.call sid1 c nc d1 ∈ events fuel W p sid clip d) :
    d < d1 ∧ d1 ≤ MAX_RECURSION + 1 := by
  refine events_induction W p
    (fun _ d e => ∀ sid1 c nc d1, e = Event.call sid1 c nc d1 → d < d1 ∧ d1 ≤ MAX_RECURSION + 1)
    ?_ ?_ ?_ fuel sid clip d _ h sid1 c nc d1 rfl
  · intro s w sp clip clip_i d e _ _ he sid1 c nc d1 heq
    obtain ⟨k, x, y1, y2, r, g, b, hl⟩ := wall_columns_lines _ _ _ _ _ _ e he
    rw [hl] at heq
    exact absurd heq (by simp)
  · intro s sid2 sp clip clip_i d hd _ sid1 c nc d1 heq
    have : d + 1 = d1 := by
      injection heq
    omega
  · intro s sp clip clip_i d e _ _ hq sid1 c nc d1 heq
    have := hq sid1 c nc d1 heq
    omega

/-- Witness for `call_depth_bound`: the invocation of sector 0 at depth 17 made from sector 1
at depth 16 in the default map. -/
theorem call_depth_bound_witness : (16 : Int) < 17 ∧ (17 : Int) ≤ MAX_RECURSION + 1 :=
  call_depth_bound 2 init_map init_player 1 full_clip 16 0 full_clip
    (portal_clip (init_map.sectors 1) init_player ⟨0, 180, -5, 1 / 10, -5, 8⟩
      (range_incl 0 180) full_clip) 17 sector1_call

/-! ## C3: the child's buffer is inside the parent's -/

/-- C3. For every recursive invocation made through a portal wall (at any nesting level),
the buffer `newclip` handed to the child is, at every column `j` (in particular for `j` in
`0 .. SCREEN_W-1`), inside the parent's buffer at the moment of the call:
`newclip[j].top >= clip[j].top` and `newclip[j].bottom <= clip[j].bottom`. -/
theorem child_clip_inside_parent (fuel : Nat) (W : World) (p : Player) (sid : Int)
    (clip : ClipBuffer) (d : Int) (sid1 : Int) (c nc : ClipBuffer) (d1 : Int)
    (h : Event.call sid1 c nc d1 ∈ events fuel W p sid clip d) (j : Int) :
    (nc j).top ≥ (c j).top ∧ (nc j).bottom ≤ (c j).bottom := by
  refine events_induction W p
    (fun _ _ e => ∀ sid1 c nc d1, e = Event.call sid1 c nc d1 → narrower nc c)
    ?_ ?_ ?_ fuel sid clip d _ h sid1 c nc d1 rfl j
  · intro s w sp clip clip_i d e _ _ he sid1 c nc d1 heq
    obtain ⟨k, x, y1, y2, r, g, b, hl⟩ := wall_columns_lines _ _ _ _ _ _ e he
    rw [hl] at heq
    exact absurd heq (by simp)
  · intro s sid2 sp clip clip_i d _ _ sid1 c nc d1 heq
    injection heq with _ hc hnc _
    rw [← hc, ← hnc]
    exact portal_clip_narrower _ _ _ _ _
  · intro s sp clip clip_i d e _ _ hq
    exact hq

/-- Witness for `child_clip_inside_parent`: the buffer handed to sector 0 through the portal
wall of sector 1 in the default map, at column 100. -/
theorem child_clip_inside_parent_witness :
    ((portal_clip (init_map.sectors 1) init_player ⟨0, 180, -5, 1 / 10, -5, 8⟩
        (range_incl 0 180) full_clip) 100).top ≥ (full_clip 100).top ∧
    ((portal_clip (init_map.sectors 1) init_player ⟨0, 180, -5, 1 / 10, -5, 8⟩
        (range_incl 0 180) full_clip) 100).bottom ≤ (full_clip 100).bottom :=
  child_clip_inside_parent 2 init_map init_player 1 full_clip 16 0 full_clip
    (portal_clip (init_map.sectors 1) init_player ⟨0, 180, -5, 1 / 10, -5, 8⟩
      (range_incl 0 180) full_clip) 17 sector1_call 100

/-- Every line of an invocation, nested ones included, is drawn at a column of the screen. -/
theorem line_column_bound (fuel : Nat) (W : World) (p : Player) (sid : Int)
    (clip : ClipBuffer) (d : Int) (k : SegKind) (x y1 y2 : Int) (r g b : Nat)
    (h : Event.line k x y1 y2 r g b ∈ events fuel W p sid clip d) :
    0 ≤ x ∧ x ≤ SCREEN_W - 1 := by
  refine events_induction W p
    (fun _ _ e => ∀ k x y1 y2 r g b, e = Event.line k x y1 y2 r g b →
      0 ≤ x ∧ x ≤ SCREEN_W - 1)
    ?_ ?_ ?_ fuel sid clip d _ h k x y1 y2 r g b rfl
  · intro s w sp clip clip_i d e _ hsp he k x y1 y2 r g b heq
    obtain ⟨x1, cy, fy, c, hx0, hx1, _, _, _, _, hcases⟩ :=
      mem_wall_columns_line s w p sp clip_i e hsp he
    have hxx : x1 = x := by
      rcases hcases with ⟨_, h⟩ | ⟨_, h⟩ | ⟨_, h⟩ <;>
        · rw [h] at heq
          injection heq
    omega
  · intro s sid2 sp clip clip_i d _ _ k x y1 y2 r g b heq
    exact absurd heq (by simp)
  · intro s sp clip clip_i d e _ _ hq
    exact hq

/-! ## C4: the three runs of one column -/

/-- C4 (as stated, refuted). With projected rows `cy = 800`, `fy = 900` and the clip range
`(0, 100)`, the ceiling run (rows 0..799) and the floor run (rows 101..719) both paint
row 200, and the ceiling run paints row 750, which is below the last screen row. -/
theorem runs_overlap_and_leave_screen :
    ∃ e1 ∈ draw_column zero_sector zero_wall 0 800 900 ⟨0, 100⟩,
      ∃ e2 ∈ draw_column zero_sector zero_wall 0 800 900 ⟨0, 100⟩,
        site e1 ≠ site e2 ∧ painted e1 200 ∧ painted e2 200 ∧
        painted e1 750 ∧ ¬ ((750 : Int) ≤ SCREEN_H - 1) := by
  refine ⟨Event.line SegKind.ceiling 0 0 799 (red 0) (green 0) (blue 0), ?_,
    Event.line SegKind.floor 0 101 719 (red 0) (green 0) (blue 0), ?_, ?_⟩
  · simp [draw_column, zero_sector, SCREEN_H]
  · simp [draw_column, zero_sector, SCREEN_H]
  · simp [site, painted, SCREEN_H]

/-- C4 (as amended). For every column, wall, projected pair `(cy, fy)` and clip range
`(top, bottom)` with `0 <= wall_top <= wall_bot + 1 <= SCREEN_H`, where
`wall_top = max(cy, top)` and `wall_bot = min(fy, bottom)`, the runs drawn for that wall at
that column are pairwise non-overlapping and every drawn row lies in `[0, SCREEN_H-1]`. -/
theorem runs_disjoint_on_screen (s : Sector) (w : Wall) (x cy fy : Int) (c : ClipRange)
    (h0 : 0 ≤ max cy c.top) (h1 : max cy c.top ≤ min fy c.bottom + 1)
    (h2 : min fy c.bottom ≤ SCREEN_H - 1) :
    (∀ e1 ∈ draw_column s w x cy fy c, ∀ e2 ∈ draw_column s w x cy fy c,
        site e1 ≠ site e2 → ∀ y, ¬ (painted e1 y ∧ painted e2 y)) ∧
    (∀ e ∈ draw_column s w x cy fy c, ∀ y, painted e y → 0 ≤ y ∧ y ≤ SCREEN_H - 1) := by
  constructor
  · intro e1 he1 e2 he2 hsite y hy
    rcases mem_draw_column s w x cy fy c e1 he1 with ⟨g1, rfl⟩ | ⟨g1, rfl⟩ | ⟨g1, rfl⟩ <;>
      rcases mem_draw_column s w x cy fy c e2 he2 with ⟨g2, rfl⟩ | ⟨g2, rfl⟩ | ⟨g2, rfl⟩ <;>
      simp only [site, painted, ne_eq, not_true_eq_false] at hsite hy <;>
      omega
  · intro e he y hy
    rcases mem_draw_column s w x cy fy c e he with ⟨g1, rfl⟩ | ⟨g1, rfl⟩ | ⟨g1, rfl⟩ <;>
      simp only [painted] at hy <;>
      omega

/-- Witness for `runs_disjoint_on_screen`: the red wall of the default map at column 480,
rows `(240, 420)` against the fully open range. -/
theorem runs_disjoint_on_screen_witness :
    (∀ e1 ∈ draw_column (init_map.sectors 0) (init_map.walls 0) 480 240 420 ⟨0, 719⟩,
      ∀ e2 ∈ draw_column (init_map.sectors 0) (init_map.walls 0) 480 240 420 ⟨0, 719⟩,
        site e1 ≠ site e2 → ∀ y, ¬ (painted e1 y ∧ painted e2 y)) ∧
    (∀ e ∈ draw_column (init_map.sectors 0) (init_map.walls 0) 480 240 420 ⟨0, 719⟩,
      ∀ y, painted e y → 0 ≤ y ∧ y ≤ SCREEN_H - 1) :=
  runs_disjoint_on_screen (init_map.sectors 0) (init_map.walls 0) 480 240 420 ⟨0, 719⟩
    (by decide) (by decide) (by decide)

/-! ## C5: lines and the clip range of the invocation -/

theorem init_ceil_rgb : red 0x404060FF = 64 ∧ green 0x404060FF = 64 ∧ blue 0x404060FF = 96 := by
  decide

theorem init_red_rgb : red 0xFF0000FF = 255 ∧ green 0xFF0000FF = 0 ∧ blue 0xFF0000FF = 0 := by
  decide

/-- The wall run of the red wall against a range that contains rows 240..420. -/
theorem red_wall_draw (x : Int) (c : ClipRange) (h1 : c.top ≤ 240) (h2 : 420 ≤ c.bottom) :
    Event.line SegKind.wall x 240 420 255 0 0 ∈
      draw_column (init_map.sectors 0) (init_map.walls 0) x 240 420 c := by
  have hmax : (if (240 : Int) > c.top then (240 : Int) else c.top) = 240 := by
    split <;> omega
  have hmin : (if (420 : Int) < c.bottom then (420 : Int) else c.bottom) = 420 := by
    split <;> omega
  unfold draw_column
  simp only [hmax, hmin]
  apply List.mem_append_right
  simp [init_map, init_red_rgb.1, init_red_rgb.2.1, init_red_rgb.2.2]

/-- C5 (as stated, refuted). In the default map with the default pose, the invocation
`render_sector(0, clip, 0)` on a buffer whose range is `(300, 400)` at every column draws at
column 480 the ceiling run of rows 0..299, which starts above `clip[480].top = 300`. -/
theorem ceiling_run_outside_clip :
    Event.line SegKind.ceiling 480 0 299 64 64 96 ∈
        events 18 init_map init_player 0 (fun _ => ⟨300, 400⟩) 0 ∧
      ¬ (((fun _ => ⟨300, 400⟩ : ClipBuffer) 480).top ≤ 0) := by
  refine ⟨red_wall_events 17 _ 0 (by decide) (by decide) 480 (by decide) (by decide) _ ?_,
    by decide⟩
  unfold draw_column
  simp [init_map, init_ceil_rgb.1, init_ceil_rgb.2.1, init_ceil_rgb.2.2]

/-- C5 (as amended). For every invocation `render_sector(sector, clip, depth)` and every
line (column `x`, rows `r0..r1`) emitted by it or by an invocation nested in it: a wall run
(draw site 179) lies inside the range the invocation was given at that column,
`clip[x].top <= r0` and `r1 <= clip[x].bottom`; a ceiling run (draw site 158) starts at
row 0 and a floor run (draw site 168) ends at row `SCREEN_H-1`, whatever that range is. -/
theorem wall_run_inside_clip (fuel : Nat) (W : World) (p : Player) (sid : Int)
    (clip : ClipBuffer) (d : Int) (k : SegKind) (x y1 y2 : Int) (r g b : Nat)
    (h : Event.line k x y1 y2 r g b ∈ events fuel W p sid clip d) :
    (k = SegKind.wall → (clip x).top ≤ y1 ∧ y2 ≤ (clip x).bottom) ∧
    (k = SegKind.ceiling → y1 = 0) ∧
    (k = SegKind.floor → y2 = SCREEN_H - 1) := by
  refine events_induction W p
    (fun clip _ e => ∀ k x y1 y2 r g b, e = Event.line k x y1 y2 r g b →
      (k = SegKind.wall → (clip x).top ≤ y1 ∧ y2 ≤ (clip x).bottom) ∧
      (k = SegKind.ceiling → y1 = 0) ∧ (k = SegKind.floor → y2 = SCREEN_H - 1))
    ?_ ?_ ?_ fuel sid clip d _ h k x y1 y2 r g b rfl
  · intro s w sp clip clip_i d e hn hsp he k x y1 y2 r g b heq
    obtain ⟨x1, cy, fy, c, _, _, _, _, ht, hb, hcases⟩ :=
      mem_wall_columns_line s w p sp clip_i e hsp he
    have hnx := hn x1
    rcases hcases with ⟨_, h⟩ | ⟨_, h⟩ | ⟨_, h⟩
    · rw [h] at heq
      injection heq with hk hx hy1 hy2
      subst hk hx hy1 hy2
      exact ⟨fun hw => absurd hw (by decide), fun _ => rfl, fun hf => absurd hf (by decide)⟩
    · rw [h] at heq
      injection heq with hk hx hy1 hy2
      subst hk hx hy1 hy2
      exact ⟨fun hw => absurd hw (by decide), fun hc => absurd hc (by decide), fun _ => rfl⟩
    · rw [h] at heq
      injection heq with hk hx hy1 hy2
      subst hk hx hy1 hy2
      refine ⟨fun _ => ⟨?_, ?_⟩, fun hc => absurd hc (by decide),
        fun hf => absurd hf (by decide)⟩
      · exact le_trans hnx.1 (le_trans ht (le_max_right _ _))
      · exact le_trans (min_le_right _ _) (le_trans hb hnx.2)
  · intro s sid2 sp clip clip_i d _ _ k x y1 y2 r g b heq
    exact absurd heq (by simp)
  · intro s sp clip clip_i d e _ hn hq k x y1 y2 r g b heq
    obtain ⟨h1, h2, h3⟩ := hq k x y1 y2 r g b heq
    refine ⟨fun hw => ?_, h2, h3⟩
    have g1 := h1 hw
    have g2 := portal_clip_narrower s p sp (range_incl sp.x1 sp.x2) clip_i x
    have g3 := hn x
    exact ⟨le_trans g3.1 (le_trans g2.1 g1.1), le_trans g1.2 (le_trans g2.2 g3.2)⟩

/-- Witness for `wall_run_inside_clip`: the red wall of the default map at column 480, drawn
on rows 240..420 inside the fully open range. -/
theorem wall_run_inside_clip_witness :
    (full_clip 480).top ≤ 240 ∧ 420 ≤ (full_clip 480).bottom :=
  (wall_run_inside_clip 18 init_map init_player 0 full_clip 0 SegKind.wall 480 240 420 255 0 0
    (red_wall_events 17 full_clip 0 (by decide) (by decide) 480 (by decide) (by decide) _
      (red_wall_draw 480 (full_clip 480) (by decide) (by decide)))).1 rfl

/-! ## C6: columns drawn by the sector behind a portal -/

/-- The invocation for sector 0 on the buffer built for the portal wall of sector 1 draws
the red wall at column 480. -/
theorem red_wall_behind_portal :
    Event.line SegKind.wall 480 240 420 255 0 0 ∈
      events 17 init_map init_player (init_map.walls 4).portal_sector
        (portal_clip (init_map.sectors 1) init_player ⟨0, 180, -5, 1 / 10, -5, 8⟩
          (range_incl 0 180) full_clip) (0 + 1) := by
  have hps : (init_map.walls 4).portal_sector = 0 := by simp [init_map]
  rw [hps]
  apply red_wall_events 16 _ (0 + 1) (by decide) (by decide) 480 (by decide) (by decide)
  apply red_wall_draw
  · rw [portal_clip_other _ _ _ _ _ _ (fun h => by
      have := (mem_range_incl _ _ _).mp h
      omega)]
    decide
  · rw [portal_clip_other _ _ _ _ _ _ (fun h => by
      have := (mem_range_incl _ _ _).mp h
      omega)]
    decide

/-- C6 (as stated, refuted). In the default map with the default pose, the portal wall of
sector 1 (wall 4, leading to sector 0) has the clamped span `[0, 180]`, and the recursive
invocation for sector 0 on the buffer built for that portal draws the red wall at column 480,
outside the span. -/
theorem child_draws_outside_portal_span :
    project_wall init_player (init_map.walls 4) = some ⟨0, 180, -5, 1 / 10, -5, 8⟩ ∧
    (init_map.walls 4).portal_sector ≠ -1 ∧
    Event.line SegKind.wall 480 240 420 255 0 0 ∈
      events 17 init_map init_player (init_map.walls 4).portal_sector
        (portal_clip (init_map.sectors 1) init_player ⟨0, 180, -5, 1 / 10, -5, 8⟩
          (range_incl 0 180) full_clip) (0 + 1) ∧
    ¬ ((480 : Int) ≤ 180) :=
  ⟨init_wall4_span, by simp [init_map], red_wall_behind_portal, by decide⟩

/-- C6 (as amended). For every portal wall whose screen span after clamping is columns
`[x1, x2]`, the buffer `newclip` built for the recursive invocation differs from the caller's
buffer only inside the span, `newclip[j] = clip[j]` at every column `j` outside `[x1, x2]`,
and every line emitted by the recursive invocation
`render_sector(portal_sector, newclip, depth+1)` (and by invocations nested in it) has its
column inside `[0, SCREEN_W-1]`. -/
theorem newclip_outside_span (fuel : Nat) (W : World) (p : Player) (s : Sector) (w : Wall)
    (sp : Span) (clip : ClipBuffer) (d : Int) :
    (∀ j, j < sp.x1 ∨ sp.x2 < j →
      portal_clip s p sp (range_incl sp.x1 sp.x2) clip j = clip j) ∧
    (∀ k x y1 y2 r g b,
      Event.line k x y1 y2 r g b ∈
        events fuel W p w.portal_sector
          (portal_clip s p sp (range_incl sp.x1 sp.x2) clip) (d + 1) →
      0 ≤ x ∧ x ≤ SCREEN_W - 1) := by
  constructor
  · intro j hj
    apply portal_clip_other
    intro h
    have := (mem_range_incl _ _ _).mp h
    omega
  · intro k x y1 y2 r g b h
    exact line_column_bound _ _ _ _ _ _ k x y1 y2 r g b h

/-- Witness for `newclip_outside_span`: the portal wall of sector 1 in the default map (wall 4,
leading to sector 0), whose span is `[0, 180]`; column 480 of the buffer built for it, and
the red wall drawn at column 480 by the recursive invocation. -/
theorem newclip_outside_span_witness :
    portal_clip (init_map.sectors 1) init_player ⟨0, 180, -5, 1 / 10, -5, 8⟩
        (range_incl 0 180) full_clip 480 = full_clip 480 ∧
    ((0 : Int) ≤ 480 ∧ (480 : Int) ≤ SCREEN_W - 1) :=
  ⟨(newclip_outside_span 17 init_map init_player (init_map.sectors 1) (init_map.walls 4)
      ⟨0, 180, -5, 1 / 10, -5, 8⟩ full_clip 0).1 480 (Or.inr (by decide)),
    (newclip_outside_span 17 init_map init_player (init_map.sectors 1) (init_map.walls 4)
      ⟨0, 180, -5, 1 / 10, -5, 8⟩ full_clip 0).2 SegKind.wall 480 240 420 255 0 0
      red_wall_behind_portal⟩

/-! ## C7: the default pose -/

/-- The recursive invocation that the default pose makes for the portal wall of sector 0. -/
theorem init_enters_sector1 :
    ∃ c, narrower c full_clip ∧
      Event.call 1 c
          (portal_clip (init_map.sectors 0) init_player ⟨0, 180, -5, 1 / 10, -5, 8⟩
            (range_incl 0 180) c) 1
        ∈ events 18 init_map init_player 0 full_clip 0 := by
  have h3 : (init_map.sectors 0).start_wall + 3 = 3 := by simp [init_map]
  have hsp : project_wall init_player
      (init_map.walls ((init_map.sectors 0).start_wall + 3)) =
        some ⟨0, 180, -5, 1 / 10, -5, 8⟩ := by
    rw [h3]
    exact init_wall3_span
  have hp : (init_map.walls ((init_map.sectors 0).start_wall + 3)).portal_sector ≠ -1 := by
    rw [h3]
    simp [init_map]
  have hps : (init_map.walls ((init_map.sectors 0).start_wall + 3)).portal_sector = 1 := by
    rw [h3]
    simp [init_map]
  obtain ⟨c, hn, hcall, _⟩ := events_portal_wall 17 init_map init_player 0 full_clip 0
    (by decide) (by decide) 3 ((mem_range_incl _ _ _).mpr (by simp [init_map])) _ hsp hp
  rw [hps] at hcall
  exact ⟨c, hn, hcall⟩

/-- C7 (as stated, refuted). In the default map with the default pose and a fully open
buffer, it is not the case that the portal wall (5,15)-(5,5) is rejected and that
`render_sector(0, clip, 0)` makes no recursive invocation. -/
theorem default_pose_portal_not_rejected :
    ¬ (project_wall init_player (init_map.walls 3) = none ∧
        ∀ sid c nc d, Event.call sid c nc d ∉ events 18 init_map init_player 0 full_clip 0) := by
  rintro ⟨_, hno⟩
  obtain ⟨c, _, hcall⟩ := init_enters_sector1
  exact hno _ _ _ _ hcall

/-- C7 (as amended). In the default map with the default pose and a fully open buffer, the
portal wall (5,15)-(5,5) of sector 0 is not rejected: the endpoint behind the camera is
clipped to the near plane, the wall projects to the on-screen columns 0..180, and
`render_sector(0, clip, 0)` invokes `render_sector` for sector 1 at depth 1, on a buffer
narrowed from the caller's at the columns of that span. -/
theorem default_pose_enters_sector1 :
    near_clip (camera_space init_player (init_map.walls 3)) = (-5, 1 / 10, -5, 8) ∧
    project_wall init_player (init_map.walls 3) = some ⟨0, 180, -5, 1 / 10, -5, 8⟩ ∧
    ∃ c, narrower c full_clip ∧
      Event.call 1 c
          (portal_clip (init_map.sectors 0) init_player ⟨0, 180, -5, 1 / 10, -5, 8⟩
            (range_incl 0 180) c) 1
        ∈ events 18 init_map init_player 0 full_clip 0 := by
  refine ⟨?_, init_wall3_span, init_enters_sector1⟩
  simp [camera_space, init_player, init_map, near_plane, near_clip, clip_endpoint]
  norm_num

/-! ## C8: the default pose turned by `π` -/

/-- With the heading turned by `π`, no invocation for sector 0 of the default map makes a
recursive invocation: its only portal wall is discarded. -/
theorem turned_no_call (fuel : Nat) (clip : ClipBuffer) (d : Int) (sid : Int)
    (c nc : ClipBuffer) (d1 : Int) :
    Event.call sid c nc d1 ∉ events fuel init_map turned_player 0 clip d := by
  intro h
  obtain ⟨fuel1, _, _, i, hi, clip_i, sp, _, hsp, hcases⟩ :=
    mem_events fuel init_map turned_player 0 clip d _ h
  rcases hcases with hl | ⟨hportal, _⟩
  · obtain ⟨k, x, y1, y2, r, g, b, hline⟩ := wall_columns_lines _ _ _ _ _ _ _ hl
    exact absurd hline (by simp)
  · have hi2 := (mem_range_incl _ _ _).mp hi
    have h0 : (init_map.sectors 0).start_wall = 0 := by simp [init_map]
    have hnum : (init_map.sectors 0).num_walls = 4 := by simp [init_map]
    rw [h0] at hsp hportal
    rw [hnum] at hi2
    obtain ⟨hlo, hhi⟩ := hi2
    interval_cases i
    · exact hportal (by simp [init_map])
    · exact hportal (by simp [init_map])
    · exact hportal (by simp [init_map])
    · rw [show (0 : Int) + 3 = 3 by norm_num, turned_wall3_span] at hsp
      exact absurd hsp (by simp)

/-- C8 (as stated, refuted). In the default map with the camera at (10, 13, 1.0) and heading
sine 1, cosine 0, it is not the case that the portal wall (5,15)-(5,5) has an on-screen span
and that `render_sector(0, clip, 0)` invokes `render_sector` for sector 1 at depth 1. -/
theorem turned_pose_claim_fails :
    ¬ (∃ sp, project_wall turned_player (init_map.walls 3) = some sp) ∧
    ¬ (∃ c nc, Event.call 1 c nc 1 ∈ events 18 init_map turned_player 0 full_clip 0) := by
  constructor
  · rintro ⟨sp, hsp⟩
    rw [turned_wall3_span] at hsp
    exact absurd hsp (by simp)
  · rintro ⟨c, nc, h⟩
    exact turned_no_call 18 full_clip 0 1 c nc 1 h

/-- C8 (as amended). In the default map with the camera at (10, 13, 1.0) and heading sine 1,
cosine 0, the portal wall (5,15)-(5,5) of sector 0, clipped to the near plane, projects to
the columns 1680 and 24480, both to the right of the screen; the wall is discarded and
`render_sector(0, clip, 0)` with a fully open buffer makes no recursive invocation. -/
theorem turned_pose_no_recursion :
    near_clip (camera_space turned_player (init_map.walls 3)) = (5, 2, 5, 1 / 10) ∧
    project_x 5 2 = 1680 ∧ project_x 5 (1 / 10) = 24480 ∧
    project_wall turned_player (init_map.walls 3) = none ∧
    ∃ r, render_sector 18 init_map turned_player 0 full_clip 0 = some r ∧
      ∀ e ∈ r.1, ∃ k x y1 y2 cr cg cb, e = Event.line k x y1 y2 cr cg cb := by
  refine ⟨?_, project_x_eq _ _ 1680 (by norm_num) (by decide),
    project_x_eq _ _ 24480 (by norm_num) (by decide),
    turned_wall3_span, ?_⟩
  · simp [camera_space, turned_player, init_map, near_plane, near_clip, clip_endpoint]
    norm_num
  · obtain ⟨r, hr⟩ := render_sector_some 18 init_map turned_player 0 full_clip 0 (by decide)
    refine ⟨r, hr, fun e he => ?_⟩
    rw [← events_of_some _ _ _ _ _ _ _ hr] at he
    cases e with
    | line k x y1 y2 cr cg cb => exact ⟨k, x, y1, y2, cr, cg, cb, rfl⟩
    | call sid c nc d1 => exact absurd he (turned_no_call 18 full_clip 0 sid c nc d1)

/-! ## C10: columns stay on the screen -/

/-- C10. For every world, camera pose, clip buffer and depth, every line emitted by
`render_sector` (by the invocation or by one nested in it) has its column in
`[0, SCREEN_W-1]`; and every column visited by the two column loops of a wall, the columns
at which `clip[x]` and `newclip[x]` are read or written, is in `[0, SCREEN_W-1]`. -/
theorem columns_on_screen (fuel : Nat) (W : World) (p : Player) (sid : Int)
    (clip : ClipBuffer) (d : Int) :
    (∀ k x y1 y2 r g b, Event.line k x y1 y2 r g b ∈ events fuel W p sid clip d →
      0 ≤ x ∧ x ≤ SCREEN_W - 1) ∧
    (∀ w sp x, project_wall p w = some sp → x ∈ range_incl sp.x1 sp.x2 →
      0 ≤ x ∧ x ≤ SCREEN_W - 1) := by
  constructor
  · intro k x y1 y2 r g b h
    exact line_column_bound fuel W p sid clip d k x y1 y2 r g b h
  · intro w sp x hsp hx
    have hb := project_wall_span p w sp hsp
    have hx2 := (mem_range_incl _ _ _).mp hx
    omega

/-- Witness for `columns_on_screen`: the red wall of the default map, drawn at column 480,
and the first column, 180, of its span. -/
theorem columns_on_screen_witness :
    ((0 : Int) ≤ 480 ∧ (480 : Int) ≤ SCREEN_W - 1) ∧ ((0 : Int) ≤ 180 ∧ (180 : Int) ≤ SCREEN_W - 1) :=
  ⟨(columns_on_screen 18 init_map init_player 0 full_clip 0).1 SegKind.wall 480 240 420 255 0 0
      (red_wall_events 17 full_clip 0 (by decide) (by decide) 480 (by decide) (by decide) _
        (red_wall_draw 480 (full_clip 480) (by decide) (by decide))),
    (columns_on_screen 18 init_map init_player 0 full_clip 0).2 (init_map.walls 0)
      ⟨180, 780, -5, 8, 5, 8⟩ 180 init_wall0_span
      ((mem_range_incl _ _ _).mpr ⟨by decide, by decide⟩)⟩

/-! ## C11: no empty segment -/

/-- C11. For every world, camera pose, clip buffer and depth, every line emitted by
`render_sector` (ceiling, floor or wall run, of the invocation or of one nested in it) is
non-empty: its first row is not below its last row, `rowStart <= rowEnd`. -/
theorem lines_nonempty (fuel : Nat) (W : World) (p : Player) (sid : Int)
    (clip : ClipBuffer) (d : Int) (k : SegKind) (x y1 y2 : Int) (r g b : Nat)
    (h : Event.line k x y1 y2 r g b ∈ events fuel W p sid clip d) : y1 ≤ y2 := by
  refine events_induction W p
    (fun _ _ e => ∀ k x y1 y2 r g b, e = Event.line k x y1 y2 r g b → y1 ≤ y2)
    ?_ ?_ ?_ fuel sid clip d _ h k x y1 y2 r g b rfl
  · intro s w sp clip clip_i d e _ hsp he k x y1 y2 r g b heq
    obtain ⟨x1, cy, fy, c, _, _, _, _, _, _, hcases⟩ :=
      mem_wall_columns_line s w p sp clip_i e hsp he
    rcases hcases with ⟨hg, h⟩ | ⟨hg, h⟩ | ⟨hg, h⟩
    · rw [h] at heq
      injection heq with _ _ hy1 hy2
      omega
    · rw [h] at heq
      injection heq with _ _ hy1 hy2
      omega
    · rw [h] at heq
      injection heq with _ _ hy1 hy2
      omega
  · intro s sid2 sp clip clip_i d _ _ k x y1 y2 r g b heq
    exact absurd heq (by simp)
  · intro s sp clip clip_i d e _ _ hq
    exact hq

/-- Witness for `lines_nonempty`: the wall run of the red wall of the default map at
column 480, rows 240..420. -/
theorem lines_nonempty_witness : (240 : Int) ≤ 420 :=
  lines_nonempty 18 init_map init_player 0 full_clip 0 SegKind.wall 480 240 420 255 0 0
    (red_wall_events 17 full_clip 0 (by decide) (by decide) 480 (by decide) (by decide) _
      (red_wall_draw 480 (full_clip 480) (by decide) (by decide)))

/-! ## C12 and C17: near-plane clipping -/

/-- The clip parameter of an endpoint behind the near plane, the other one being at or
beyond it: it lies in `(0, 1]` and the point of the segment at that parameter has depth
`near_plane`. -/
theorem clip_param_bounds (vz1 vz2 : ℚ) (h1 : vz1 < near_plane) (h2 : near_plane ≤ vz2) :
    0 ≤ (near_plane - vz1) / (vz2 - vz1) ∧ (near_plane - vz1) / (vz2 - vz1) ≤ 1 ∧
    vz1 + (near_plane - vz1) / (vz2 - vz1) * (vz2 - vz1) = near_plane := by
  have hd : 0 < vz2 - vz1 := by linarith
  refine ⟨div_nonneg (by linarith) (le_of_lt hd), ?_, ?_⟩
  · rw [div_le_one hd]
    linarith
  · rw [div_mul_cancel₀ _ (ne_of_gt hd)]
    ring

/-- An endpoint behind the near plane, the other one being at or beyond it, is replaced. -/
theorem clip_endpoint_behind (vx1 vz1 vx2 vz2 : ℚ) (h1 : vz1 < near_plane)
    (h2 : near_plane ≤ vz2) :
    clip_endpoint vx1 vz1 vx2 vz2 =
      (vx1 + (near_plane - vz1) / (vz2 - vz1) * (vx2 - vx1), near_plane) := by
  obtain ⟨ht0, ht1, _⟩ := clip_param_bounds vz1 vz2 h1 h2
  unfold clip_endpoint
  rw [if_pos h1]
  dsimp only
  rw [if_pos ⟨ht0, ht1⟩]

/-- An endpoint at or beyond the near plane is left alone. -/
theorem clip_endpoint_front (vx1 vz1 vx2 vz2 : ℚ) (h1 : near_plane ≤ vz1) :
    clip_endpoint vx1 vz1 vx2 vz2 = (vx1, vz1) := by
  unfold clip_endpoint
  rw [if_neg (not_lt.mpr h1)]

/-- After the clipping step of a wall that passed the test of line 103, both depths are at
least `near_plane`. -/
theorem near_clip_depths_ge (v : ℚ × ℚ × ℚ × ℚ)
    (h : ¬ (v.2.1 < near_plane ∧ v.2.2.2 < near_plane)) :
    near_plane ≤ (near_clip v).2.1 ∧ near_plane ≤ (near_clip v).2.2.2 := by
  unfold near_clip
  dsimp only
  by_cases h1 : v.2.1 < near_plane
  · have h2 : near_plane ≤ v.2.2.2 := by
      by_contra hc
      exact h ⟨h1, not_le.mp hc⟩
    rw [clip_endpoint_behind _ _ _ _ h1 h2]
    dsimp only
    rw [clip_endpoint_front _ _ _ _ h2]
    exact ⟨le_refl _, h2⟩
  · have h1' : near_plane ≤ v.2.1 := not_lt.mp h1
    rw [clip_endpoint_front _ _ _ _ h1']
    dsimp only
    by_cases h2 : v.2.2.2 < near_plane
    · rw [clip_endpoint_behind _ _ _ _ h2 h1']
      exact ⟨h1', le_refl _⟩
    · rw [clip_endpoint_front _ _ _ _ (not_lt.mp h2)]
      exact ⟨h1', not_lt.mp h2⟩

/-- The depths carried by the span of a projected wall are those left by the clipping step,
possibly exchanged. -/
theorem screen_span_depths (v : ℚ × ℚ × ℚ × ℚ) (sp : Span) (h : screen_span v = some sp) :
    (sp.vx1 = v.1 ∧ sp.vz1 = v.2.1 ∧ sp.vx2 = v.2.2.1 ∧ sp.vz2 = v.2.2.2) ∨
    (sp.vx1 = v.2.2.1 ∧ sp.vz1 = v.2.2.2 ∧ sp.vx2 = v.1 ∧ sp.vz2 = v.2.1) := by
  unfold screen_span at h
  dsimp only at h
  generalize project_x v.1 v.2.1 = a at h
  generalize project_x v.2.2.1 v.2.2.2 = b at h
  by_cases hab : a = b
  · rw [if_pos hab] at h
    exact absurd h (by simp)
  · rw [if_neg hab] at h
    by_cases hlt : b < a
    · rw [if_pos hlt] at h
      dsimp only at h
      split at h
      · exact absurd h (by simp)
      · simp only [Option.some.injEq] at h
        subst h
        exact Or.inr ⟨rfl, rfl, rfl, rfl⟩
    · rw [if_neg hlt] at h
      dsimp only at h
      split at h
      · exact absurd h (by simp)
      · simp only [Option.some.injEq] at h
        subst h
        exact Or.inl ⟨rfl, rfl, rfl, rfl⟩

/-- The depths of the span of a projected wall are at least `near_plane`. -/
theorem project_wall_depths (p : Player) (w : Wall) (sp : Span)
    (h : project_wall p w = some sp) : near_plane ≤ sp.vz1 ∧ near_plane ≤ sp.vz2 := by
  unfold project_wall at h
  dsimp only at h
  split at h
  · exact absurd h (by simp)
  · rename_i hrej
    obtain ⟨g1, g2⟩ := near_clip_depths_ge _ hrej
    rcases screen_span_depths _ sp h with ⟨_, e1, _, e2⟩ | ⟨_, e1, _, e2⟩
    · rw [e1, e2]
      exact ⟨g1, g2⟩
    · rw [e1, e2]
      exact ⟨g2, g1⟩

/-- C12. For every wall that is not rejected by the near-plane test (not both camera-space
depths below 0.1), after the near-plane clipping step both endpoint depths are at least 0.1;
whenever an endpoint is behind the near plane its clip parameter `t` lies in `[0, 1]`, so the
replacement happens; hence the depths that the column projection divides by, and the depths
of the span whose inverses the column loops take, are at least 0.1 and never zero. -/
theorem depths_after_near_clip (p : Player) (w : Wall)
    (h : ¬ ((camera_space p w).2.1 < near_plane ∧ (camera_space p w).2.2.2 < near_plane)) :
    0 < near_plane ∧
    near_plane ≤ (near_clip (camera_space p w)).2.1 ∧
    near_plane ≤ (near_clip (camera_space p w)).2.2.2 ∧
    ((camera_space p w).2.1 < near_plane →
      0 ≤ (near_plane - (camera_space p w).2.1) /
            ((camera_space p w).2.2.2 - (camera_space p w).2.1) ∧
      (near_plane - (camera_space p w).2.1) /
            ((camera_space p w).2.2.2 - (camera_space p w).2.1) ≤ 1) ∧
    ((camera_space p w).2.2.2 < near_plane →
      0 ≤ (near_plane - (camera_space p w).2.2.2) /
            ((clip_endpoint (camera_space p w).1 (camera_space p w).2.1
                (camera_space p w).2.2.1 (camera_space p w).2.2.2).2 -
              (camera_space p w).2.2.2) ∧
      (near_plane - (camera_space p w).2.2.2) /
            ((clip_endpoint (camera_space p w).1 (camera_space p w).2.1
                (camera_space p w).2.2.1 (camera_space p w).2.2.2).2 -
              (camera_space p w).2.2.2) ≤ 1) ∧
    (∀ sp, project_wall p w = some sp →
      near_plane ≤ sp.vz1 ∧ near_plane ≤ sp.vz2 ∧ sp.vz1 ≠ 0 ∧ sp.vz2 ≠ 0) := by
  have hpos : 0 < near_plane := by norm_num [near_plane]
  obtain ⟨g1, g2⟩ := near_clip_depths_ge _ h
  refine ⟨hpos, g1, g2, ?_, ?_, ?_⟩
  · intro h1
    have h2 : near_plane ≤ (camera_space p w).2.2.2 := by
      by_contra hc
      exact h ⟨h1, not_le.mp hc⟩
    obtain ⟨t0, t1, _⟩ := clip_param_bounds _ _ h1 h2
    exact ⟨t0, t1⟩
  · intro h2
    have h1 : near_plane ≤ (camera_space p w).2.1 := by
      by_contra hc
      exact h ⟨not_le.mp hc, h2⟩
    rw [clip_endpoint_front _ _ _ _ h1]
    obtain ⟨t0, t1, _⟩ := clip_param_bounds _ _ h2 h1
    exact ⟨t0, t1⟩
  · intro sp hsp
    obtain ⟨d1, d2⟩ := project_wall_depths p w sp hsp
    exact ⟨d1, d2, ne_of_gt (lt_of_lt_of_le hpos d1), ne_of_gt (lt_of_lt_of_le hpos d2)⟩

/-- The portal wall of sector 0 of the default map, seen from the default pose, has its
first endpoint behind the camera and its second one at depth 8. -/
theorem init_wall3_camera :
    camera_space init_player (init_map.walls 3) = (-5, -2, -5, 8) := by
  simp [camera_space, init_player, init_map]
  norm_num

/-- Witness for `depths_after_near_clip`: the portal wall of sector 0 of the default map seen
from the default pose, camera-space depths `-2` and `8`. -/
theorem depths_after_near_clip_witness :
    near_plane ≤ (near_clip (camera_space init_player (init_map.walls 3))).2.1 ∧
    near_plane ≤ (near_clip (camera_space init_player (init_map.walls 3))).2.2.2 :=
  ⟨(depths_after_near_clip init_player (init_map.walls 3) (by
      rw [init_wall3_camera]
      norm_num [near_plane])).2.1,
   (depths_after_near_clip init_player (init_map.walls 3) (by
      rw [init_wall3_camera]
      norm_num [near_plane])).2.2.1⟩

/-- C17. Near-plane clipping keeps the endpoint on the wall: when exactly one endpoint has a
camera-space depth below 0.1, the clipping step replaces that endpoint by the point of the
original segment at parameter `t = (0.1 - vz_behind) / (vz_front - vz_behind)`, which lies
in `[0, 1]` and whose depth is exactly 0.1 (its lateral coordinate is the interpolation of
the two laterals at `t`), and leaves the other endpoint unchanged. -/
theorem near_clip_on_segment (vx1 vz1 vx2 vz2 : ℚ) :
    (vz1 < near_plane → near_plane ≤ vz2 →
      0 ≤ (near_plane - vz1) / (vz2 - vz1) ∧ (near_plane - vz1) / (vz2 - vz1) ≤ 1 ∧
      vz1 + (near_plane - vz1) / (vz2 - vz1) * (vz2 - vz1) = near_plane ∧
      near_clip (vx1, vz1, vx2, vz2) =
        (vx1 + (near_plane - vz1) / (vz2 - vz1) * (vx2 - vx1), near_plane, vx2, vz2)) ∧
    (vz2 < near_plane → near_plane ≤ vz1 →
      0 ≤ (near_plane - vz2) / (vz1 - vz2) ∧ (near_plane - vz2) / (vz1 - vz2) ≤ 1 ∧
      vz2 + (near_plane - vz2) / (vz1 - vz2) * (vz1 - vz2) = near_plane ∧
      near_clip (vx1, vz1, vx2, vz2) =
        (vx1, vz1, vx2 + (near_plane - vz2) / (vz1 - vz2) * (vx1 - vx2), near_plane)) := by
  constructor
  · intro h1 h2
    obtain ⟨t0, t1, hz⟩ := clip_param_bounds vz1 vz2 h1 h2
    refine ⟨t0, t1, hz, ?_⟩
    unfold near_clip
    dsimp only
    rw [clip_endpoint_behind _ _ _ _ h1 h2]
    dsimp only
    rw [clip_endpoint_front _ _ _ _ h2]
  · intro h2 h1
    obtain ⟨t0, t1, hz⟩ := clip_param_bounds vz2 vz1 h2 h1
    refine ⟨t0, t1, hz, ?_⟩
    unfold near_clip
    dsimp only
    rw [clip_endpoint_front _ _ _ _ h1]
    dsimp only
    rw [clip_endpoint_behind _ _ _ _ h2 h1]

/-- Witness for `near_clip_on_segment`: the camera-space endpoints `(-5, -2)` and `(-5, 8)` of
the portal wall of sector 0 of the default map seen from the default pose. -/
theorem near_clip_on_segment_witness :
    near_clip (-5, -2, -5, 8) =
      (-5 + (near_plane - -2) / (8 - -2) * (-5 - -5), near_plane, -5, 8) :=
  ((near_clip_on_segment (-5) (-2) (-5) 8).1 (by norm_num [near_plane])
    (by norm_num [near_plane])).2.2.2

/-! ## C13: perspective-correct interpolation -/

/-- The rows of a column are computed from `column_inv_vz`, unless the test of line 141
skips the column. -/
theorem column_rows_eq (s : Sector) (p : Player) (sp : Span) (x : Int) :
    column_rows s p sp x =
      if |sp.vx2 * (1 / sp.vz2) - sp.vx1 * (1 / sp.vz1)| < denom_eps then none
      else some
        (to_int ((SCREEN_H : ℚ) / 2 - (s.ceil_h - p.z) * (scale_factor * column_inv_vz sp x)),
         to_int ((SCREEN_H : ℚ) / 2 - (s.floor_h - p.z) * (scale_factor * column_inv_vz sp x))) := by
  rfl

/-- When the ray slope of the column lies between the slopes of the two endpoints, the
value `u` of line 142 is already in `[0, 1]`. -/
theorem interp_point (vx1 vz1 vx2 vz2 su : ℚ)
    (hne : vx1 / vz1 ≠ vx2 / vz2)
    (hb : (vx1 / vz1 ≤ su ∧ su ≤ vx2 / vz2) ∨ (vx2 / vz2 ≤ su ∧ su ≤ vx1 / vz1)) :
    0 ≤ (su - vx1 * (1 / vz1)) / (vx2 * (1 / vz2) - vx1 * (1 / vz1)) ∧
    (su - vx1 * (1 / vz1)) / (vx2 * (1 / vz2) - vx1 * (1 / vz1)) ≤ 1 := by
  have e1 : vx1 * (1 / vz1) = vx1 / vz1 := by ring
  have e2 : vx2 * (1 / vz2) = vx2 / vz2 := by ring
  rw [e1, e2]
  rcases hb with ⟨b1, b2⟩ | ⟨b1, b2⟩
  · have hD : 0 < vx2 / vz2 - vx1 / vz1 := by
      have : vx1 / vz1 ≤ vx2 / vz2 := le_trans b1 b2
      rcases lt_or_eq_of_le this with h | h
      · linarith
      · exact absurd h hne
    refine ⟨div_nonneg (by linarith) (le_of_lt hD), ?_⟩
    rw [div_le_one hD]
    linarith
  · have hD : vx2 / vz2 - vx1 / vz1 < 0 := by
      have : vx2 / vz2 ≤ vx1 / vz1 := le_trans b1 b2
      rcases lt_or_eq_of_le this with h | h
      · linarith
      · exact absurd h.symm hne
    refine ⟨div_nonneg_of_nonpos (by linarith) (le_of_lt hD), ?_⟩
    rw [div_le_one_of_neg hD]
    linarith


/-- Interpolating the inverse depth linearly in the screen fraction `u` gives the inverse
of the depth of the point of the segment at parameter `u * (1/vz2) / inv`, and that point
has lateral/depth ratio `su`. -/
theorem interp_inverse_depth (vx1 vz1 vx2 vz2 su u inv : ℚ) (h1 : 0 < vz1) (h2 : 0 < vz2)
    (hne : vx1 / vz1 ≠ vx2 / vz2)
    (hu : u = (su - vx1 / vz1) / (vx2 / vz2 - vx1 / vz1)) (hu0 : 0 ≤ u) (hu1 : u ≤ 1)
    (hinv_def : inv = 1 / vz1 * (1 - u) + 1 / vz2 * u) :
    0 < inv ∧ 0 ≤ u * (1 / vz2) / inv ∧ u * (1 / vz2) / inv ≤ 1 ∧
    1 / inv = vz1 + u * (1 / vz2) / inv * (vz2 - vz1) ∧
    vx1 + u * (1 / vz2) / inv * (vx2 - vx1) = su * (1 / inv) := by
  have i1 : 0 < 1 / vz1 := one_div_pos.mpr h1
  have i2 : 0 < 1 / vz2 := one_div_pos.mpr h2
  have hinv : 0 < inv := by
    rw [hinv_def]
    rcases lt_or_eq_of_le hu0 with hpos | hzero
    · have := mul_pos i2 hpos
      have := mul_nonneg (le_of_lt i1) (sub_nonneg.mpr hu1)
      linarith
    · rw [← hzero]
      simpa using i1
  have hD : vx2 / vz2 - vx1 / vz1 ≠ 0 := fun h => hne (by linarith)
  have hsu : su = vx1 / vz1 + u * (vx2 / vz2 - vx1 / vz1) := by
    rw [hu, div_mul_cancel₀ _ hD]
    ring
  have hne1 : vz1 ≠ 0 := ne_of_gt h1
  have hne2 : vz2 ≠ 0 := ne_of_gt h2
  have hinvne : inv ≠ 0 := ne_of_gt hinv
  have key : inv * (vz1 * vz2) = vz2 * (1 - u) + vz1 * u := by
    rw [hinv_def]
    field_simp
    ring
  refine ⟨hinv, ?_, ?_, ?_, ?_⟩
  · exact div_nonneg (mul_nonneg hu0 (le_of_lt i2)) (le_of_lt hinv)
  · rw [div_le_one hinv, hinv_def]
    have := mul_nonneg (le_of_lt i1) (sub_nonneg.mpr hu1)
    linarith
  · field_simp
    linear_combination (-1 : ℚ) * key
  · rw [hsu]
    field_simp
    linear_combination (vx1 * vz1 * vz2 * inv) * key

/-- On a segment whose endpoints have different lateral/depth ratios, at most one point has
a given ratio. -/
theorem ratio_point_unique (vx1 vz1 vx2 vz2 su t t1 : ℚ) (h1 : vz1 ≠ 0) (h2 : vz2 ≠ 0)
    (hne : vx1 / vz1 ≠ vx2 / vz2)
    (ht : vx1 + t * (vx2 - vx1) = su * (vz1 + t * (vz2 - vz1)))
    (ht1 : vx1 + t1 * (vx2 - vx1) = su * (vz1 + t1 * (vz2 - vz1))) : t1 = t := by
  have hk : (vx2 - vx1) - su * (vz2 - vz1) ≠ 0 := by
    intro hk
    have e1 : vx1 = su * vz1 := by linear_combination ht - t * hk
    have e2 : vx2 = su * vz2 := by linear_combination e1 + hk
    apply hne
    rw [e1, e2, mul_div_assoc, mul_div_assoc, div_self h1, div_self h2]
  have hmul : (t1 - t) * ((vx2 - vx1) - su * (vz2 - vz1)) = 0 := by
    linear_combination ht1 - ht
  rcases mul_eq_zero.mp hmul with h | h
  · linarith
  · exact absurd h hk

/-- C13. Perspective correctness: for every wall with clipped camera-space endpoints
`(vx1, vz1)`, `(vx2, vz2)`, both depths at least 0.1 and `vx1/vz1 ≠ vx2/vz2`, and every
column `x` whose ray slope `screen_u = (x - SCREEN_W/2) / scale_factor` lies between
`vx1/vz1` and `vx2/vz2`, there is exactly one point of the wall segment (parameter `t` in
`[0, 1]`, depth `z`) whose lateral/depth ratio is `screen_u`; the interpolated inverse depth
`inv_vz` of lines 142-145 equals `1/z`, so `proj = scale_factor / z`, and the rows that
`render_sector` computes for the column (when line 141 does not skip it) are those of
depth `z`. -/
theorem perspective_correct (s : Sector) (p : Player) (sp : Span) (x : Int)
    (hz1 : near_plane ≤ sp.vz1) (hz2 : near_plane ≤ sp.vz2)
    (hne : sp.vx1 / sp.vz1 ≠ sp.vx2 / sp.vz2)
    (hb : (sp.vx1 / sp.vz1 ≤ ((x : ℚ) - (SCREEN_W : ℚ) / 2) / scale_factor ∧
            ((x : ℚ) - (SCREEN_W : ℚ) / 2) / scale_factor ≤ sp.vx2 / sp.vz2) ∨
          (sp.vx2 / sp.vz2 ≤ ((x : ℚ) - (SCREEN_W : ℚ) / 2) / scale_factor ∧
            ((x : ℚ) - (SCREEN_W : ℚ) / 2) / scale_factor ≤ sp.vx1 / sp.vz1)) :
    ∃ t z : ℚ, 0 ≤ t ∧ t ≤ 1 ∧ z = sp.vz1 + t * (sp.vz2 - sp.vz1) ∧ near_plane ≤ z ∧
      sp.vx1 + t * (sp.vx2 - sp.vx1) = ((x : ℚ) - (SCREEN_W : ℚ) / 2) / scale_factor * z ∧
      (∀ t1 : ℚ, sp.vx1 + t1 * (sp.vx2 - sp.vx1) =
          ((x : ℚ) - (SCREEN_W : ℚ) / 2) / scale_factor * (sp.vz1 + t1 * (sp.vz2 - sp.vz1)) →
        t1 = t) ∧
      column_inv_vz sp x = 1 / z ∧
      scale_factor * column_inv_vz sp x = scale_factor / z ∧
      column_rows s p sp x =
        if |sp.vx2 * (1 / sp.vz2) - sp.vx1 * (1 / sp.vz1)| < denom_eps then none
        else some
          (to_int ((SCREEN_H : ℚ) / 2 - (s.ceil_h - p.z) * (scale_factor / z)),
           to_int ((SCREEN_H : ℚ) / 2 - (s.floor_h - p.z) * (scale_factor / z))) := by
  have hnp : 0 < near_plane := by norm_num [near_plane]
  have h1 : 0 < sp.vz1 := lt_of_lt_of_le hnp hz1
  have h2 : 0 < sp.vz2 := lt_of_lt_of_le hnp hz2
  obtain ⟨hu0, hu1⟩ := interp_point sp.vx1 sp.vz1 sp.vx2 sp.vz2 _ hne hb
  generalize hsu : ((x : ℚ) - (SCREEN_W : ℚ) / 2) / scale_factor = su at hb hu0 hu1 ⊢
  generalize hu : (su - sp.vx1 * (1 / sp.vz1)) / (sp.vx2 * (1 / sp.vz2) - sp.vx1 * (1 / sp.vz1)) = u
    at hu0 hu1
  have hinv : column_inv_vz sp x = 1 / sp.vz1 * (1 - u) + 1 / sp.vz2 * u := by
    unfold column_inv_vz
    dsimp only
    rw [hsu, hu, min_eq_right hu1, max_eq_right hu0]
  have hu' : u = (su - sp.vx1 / sp.vz1) / (sp.vx2 / sp.vz2 - sp.vx1 / sp.vz1) := by
    rw [← hu]
    ring
  obtain ⟨ipos, t0, t1, hz, hx⟩ := interp_inverse_depth sp.vx1 sp.vz1 sp.vx2 sp.vz2 su u
    (column_inv_vz sp x) h1 h2 hne hu' hu0 hu1 hinv
  refine ⟨u * (1 / sp.vz2) / column_inv_vz sp x, 1 / column_inv_vz sp x, t0, t1, hz, ?_, hx,
    ?_, ?_, ?_, ?_⟩
  · rw [hz]
    have := mul_nonneg t0 (sub_nonneg.mpr hz2)
    have := mul_nonneg (sub_nonneg.mpr t1) (sub_nonneg.mpr hz1)
    nlinarith
  · intro t1' ht1'
    refine ratio_point_unique sp.vx1 sp.vz1 sp.vx2 sp.vz2 su _ t1' (ne_of_gt h1) (ne_of_gt h2)
      hne ?_ ht1'
    rw [hx, hz]
  · rw [one_div_one_div]
  · rw [one_div, div_inv_eq_mul]
  · have e : scale_factor / (1 / column_inv_vz sp x) = scale_factor * column_inv_vz sp x := by
      rw [one_div, div_inv_eq_mul]
    rw [column_rows_eq, e]

/-- Witness for `perspective_correct`: the red wall of the default map, camera-space
endpoints `(-5, 8)` and `(5, 8)`, at column 480, whose ray slope is 0. -/
theorem perspective_correct_witness :
    ∃ z : ℚ, near_plane ≤ z ∧ column_inv_vz ⟨180, 780, -5, 8, 5, 8⟩ 480 = 1 / z := by
  obtain ⟨t, z, _, _, _, hz, _, _, hinv, _⟩ :=
    perspective_correct (init_map.sectors 0) init_player ⟨180, 780, -5, 8, 5, 8⟩ 480
      (by norm_num [near_plane]) (by norm_num [near_plane]) (by norm_num)
      (Or.inl (by norm_num [SCREEN_W, scale_factor, tan_half_fov]))
  exact ⟨z, hz, hinv⟩

/-! ## C14, C15, C16: what an invocation does to the caller's buffer -/

theorem render_sector_narrower (fuel : Nat) (W : World) (p : Player) (sid : Int)
    (clip : ClipBuffer) (d : Int) (r : List Event × ClipBuffer)
    (h : render_sector fuel W p sid clip d = some r) : narrower r.2 clip := by
  cases fuel with
  | zero =>
    rw [render_sector_zero] at h
    exact absurd h (by simp)
  | succ fuel =>
    rw [render_sector_succ] at h
    by_cases hd : d > MAX_RECURSION
    · rw [if_pos hd] at h
      simp only [Option.some.injEq] at h
      subst h
      exact narrower_refl clip
    · rw [if_neg hd] at h
      exact render_walls_narrower _ _ _ _ _ _ _ _ h

/-- C14. For every call `render_sector(sector, clip, depth)` and every column `j`, the
caller's buffer is only ever narrowed: when the call returns, `clip[j].top` is at least its
value at entry and `clip[j].bottom` at most its value at entry; and the same holds from any
moment of the call to any later one, since every run of iterations of the wall loop, every
single wall, every run of iterations of the column loop and every single column step
leaves the buffer at least as narrow as it found it. -/
theorem buffer_only_narrowed (fuel : Nat) (W : World) (p : Player) (sid : Int)
    (clip : ClipBuffer) (d : Int) :
    (∀ r, render_sector fuel W p sid clip d = some r →
      ∀ j, (r.2 j).top ≥ (clip j).top ∧ (r.2 j).bottom ≤ (clip j).bottom) ∧
    (∀ child s is c r, render_walls child W p s d is c = some r → narrower r.2 c) ∧
    (∀ child s i c r, render_wall child W p s d i c = some r → narrower r.2 c) ∧
    (∀ s w sp xs c, narrower (wall_columns s w p sp xs c).2 c) ∧
    (∀ s w sp x c, narrower (column_step s w p sp x c).2 c) := by
  refine ⟨?_, ?_, ?_, ?_, ?_⟩
  · intro r h j
    exact render_sector_narrower fuel W p sid clip d r h j
  · intro child s is c r h
    exact render_walls_narrower child W p s d is c r h
  · intro child s i c r h
    exact render_wall_narrower child W p s d i c r h
  · intro s w sp xs c
    exact wall_columns_narrower s w p sp xs c
  · intro s w sp x c
    exact column_step_narrower s w p sp x c

/-- Witness for `buffer_only_narrowed`: the render pass of the default map from the default
pose, at column 480. -/
theorem buffer_only_narrowed_witness :
    ∃ r, render_sector 18 init_map init_player 0 full_clip 0 = some r ∧
      (r.2 480).top ≥ (full_clip 480).top ∧ (r.2 480).bottom ≤ (full_clip 480).bottom := by
  obtain ⟨r, hr⟩ := render_sector_some 18 init_map init_player 0 full_clip 0 (by decide)
  exact ⟨r, hr, (buffer_only_narrowed 18 init_map init_player 0 full_clip 0).1 r hr 480⟩

/-- C15. Processing a portal wall (its column loop, the construction of `newclip` and the
whole recursive invocation, whatever it does) leaves the current invocation's buffer
unchanged at every column. -/
theorem portal_wall_keeps_buffer (child : Int → ClipBuffer → Option (List Event))
    (W : World) (p : Player) (s : Sector) (d : Int) (i : Int) (clip : ClipBuffer)
    (r : List Event × ClipBuffer)
    (hportal : (W.walls (s.start_wall + i)).portal_sector ≠ -1)
    (h : render_wall child W p s d i clip = some r) : ∀ j, r.2 j = clip j := by
  intro j
  rcases render_wall_cases child W p s d i clip r h with
    ⟨_, rfl⟩ | ⟨sp, _, ⟨hsolid, _⟩ | ⟨_, sub, _, rfl⟩⟩
  · rfl
  · exact absurd hsolid hportal
  · dsimp only
    rw [wall_columns_portal _ _ _ _ _ _ hportal]

/-- The portal wall of sector 1 of the default map, processed at depth 16 from the default
pose on the fully open buffer, with a recursive invocation that draws nothing. -/
theorem sector1_portal_wall :
    render_wall (fun _ _ => some []) init_map init_player (init_map.sectors 1) 16 0 full_clip =
      some
        ((wall_columns (init_map.sectors 1) (init_map.walls 4) init_player
              ⟨0, 180, -5, 1 / 10, -5, 8⟩ (range_incl 0 180) full_clip).1 ++
            [Event.call 0
              (wall_columns (init_map.sectors 1) (init_map.walls 4) init_player
                ⟨0, 180, -5, 1 / 10, -5, 8⟩ (range_incl 0 180) full_clip).2
              (portal_clip (init_map.sectors 1) init_player ⟨0, 180, -5, 1 / 10, -5, 8⟩
                (range_incl 0 180)
                (wall_columns (init_map.sectors 1) (init_map.walls 4) init_player
                  ⟨0, 180, -5, 1 / 10, -5, 8⟩ (range_incl 0 180) full_clip).2) (16 + 1)],
          (wall_columns (init_map.sectors 1) (init_map.walls 4) init_player
              ⟨0, 180, -5, 1 / 10, -5, 8⟩ (range_incl 0 180) full_clip).2) := by
  have h4 : (init_map.sectors 1).start_wall + 0 = 4 := by simp [init_map]
  have hp : (init_map.walls 4).portal_sector ≠ -1 := by simp [init_map]
  have hps : (init_map.walls 4).portal_sector = 0 := by simp [init_map]
  unfold render_wall
  dsimp only
  rw [h4, init_wall4_span]
  dsimp only
  rw [if_pos hp, hps]

/-- Witness for `portal_wall_keeps_buffer`: the portal wall of sector 1 of the default map,
at column 100 of its span. -/
theorem portal_wall_keeps_buffer_witness :
    (wall_columns (init_map.sectors 1) (init_map.walls 4) init_player
        ⟨0, 180, -5, 1 / 10, -5, 8⟩ (range_incl 0 180) full_clip).2 100 = full_clip 100 :=
  portal_wall_keeps_buffer (fun _ _ => some []) init_map init_player (init_map.sectors 1) 16 0
    full_clip _ (by simp [init_map]) sector1_portal_wall 100

/-- C16. For every sector id and clip buffer, a call `render_sector(sector, clip, depth)`
with `depth > MAX_RECURSION` returns at once: it produces no event (no draw call and no
recursive invocation), hands back the buffer unchanged, and returns normally. -/
theorem beyond_cap_returns (fuel : Nat) (W : World) (p : Player) (sid : Int)
    (clip : ClipBuffer) (d : Int) (h : d > MAX_RECURSION) :
    render_sector (fuel + 1) W p sid clip d = some ([], clip) ∧
    events (fuel + 1) W p sid clip d = [] := by
  have hr : render_sector (fuel + 1) W p sid clip d = some ([], clip) := by
    rw [render_sector_succ, if_pos h]
  exact ⟨hr, events_of_some _ _ _ _ _ _ _ hr⟩

/-- Witness for `beyond_cap_returns`: sector 0 of the default map at depth 17. -/
theorem beyond_cap_returns_witness :
    render_sector 1 init_map init_player 0 full_clip 17 = some ([], full_clip) ∧
    events 1 init_map init_player 0 full_clip 17 = [] :=
  beyond_cap_returns 0 init_map init_player 0 full_clip 17 (by decide)

/-! ## C18: the ceiling row and the floor row -/

/-- Truncation toward zero is monotone. -/
theorem trunc_mono (a b : ℚ) (h : a ≤ b) :
    (if 0 ≤ a then ⌊a⌋ else ⌈a⌉) ≤ (if 0 ≤ b then ⌊b⌋ else ⌈b⌉) := by
  by_cases ha : 0 ≤ a
  · have hb : 0 ≤ b := le_trans ha h
    rw [if_pos ha, if_pos hb]
    exact Int.floor_mono h
  · rw [if_neg ha]
    by_cases hb : 0 ≤ b
    · rw [if_pos hb]
      have h1 : ⌈a⌉ ≤ 0 := Int.ceil_le.mpr (by
        have := le_of_lt (not_le.mp ha)
        simpa using this)
      have h2 : 0 ≤ ⌊b⌋ := Int.le_floor.mpr (by simpa using hb)
      exact le_trans h1 h2
    · rw [if_neg hb]
      exact Int.ceil_mono h

/-- No conversion gives less than `INT_MIN`. -/
theorem int_min_le_to_int (q : ℚ) : INT_MIN ≤ to_int q := by
  unfold to_int
  by_cases hr : (INT_MIN : ℚ) - 1 < q ∧ q < (INT_MAX : ℚ) + 1
  · rw [if_pos hr]
    by_cases h0 : 0 ≤ q
    · rw [if_pos h0]
      have : (0 : Int) ≤ ⌊q⌋ := Int.le_floor.mpr (by simpa using h0)
      have hmin : INT_MIN ≤ 0 := by decide
      exact le_trans hmin this
    · rw [if_neg h0]
      have hlt : INT_MIN - 1 < ⌈q⌉ := Int.lt_ceil.mpr (by
        push_cast
        exact hr.1)
      omega
  · rw [if_neg hr]

/-- The conversion `(int)` is monotone up to any value whose truncation fits `int`. -/
theorem to_int_mono_of_range (a b : ℚ) (h : a ≤ b)
    (hb : (INT_MIN : ℚ) - 1 < b ∧ b < (INT_MAX : ℚ) + 1) : to_int a ≤ to_int b := by
  by_cases ha : (INT_MIN : ℚ) - 1 < a ∧ a < (INT_MAX : ℚ) + 1
  · unfold to_int
    rw [if_pos ha, if_pos hb]
    exact trunc_mono a b h
  · have e : to_int a = INT_MIN := by
      unfold to_int
      rw [if_neg ha]
    rw [e]
    exact int_min_le_to_int b

/-- The interpolated inverse depth of a column is strictly positive when both depths of the
span are: it is a convex combination of the two inverse depths. -/
theorem column_inv_vz_pos (sp : Span) (x : Int) (h1 : 0 < sp.vz1) (h2 : 0 < sp.vz2) :
    0 < column_inv_vz sp x := by
  unfold column_inv_vz
  dsimp only
  generalize (((x : ℚ) - (SCREEN_W : ℚ) / 2) / scale_factor - sp.vx1 * (1 / sp.vz1)) /
    (sp.vx2 * (1 / sp.vz2) - sp.vx1 * (1 / sp.vz1)) = u0
  have hu0 : 0 ≤ max 0 (min 1 u0) := le_max_left _ _
  have hu1 : max 0 (min 1 u0) ≤ 1 := max_le (by norm_num) (min_le_left _ _)
  generalize max 0 (min 1 u0) = u at hu0 hu1
  have i1 : 0 < 1 / sp.vz1 := one_div_pos.mpr h1
  have i2 : 0 < 1 / sp.vz2 := one_div_pos.mpr h2
  rcases lt_or_eq_of_le hu0 with hpos | hzero
  · have := mul_pos i2 hpos
    have := mul_nonneg (le_of_lt i1) (sub_nonneg.mpr hu1)
    linarith
  · rw [← hzero]
    simpa using i1

/-- In exact arithmetic the interpolated inverse depth along the red wall is `1/8` at every
column. -/
theorem red_wall_inv_vz (x : Int) : column_inv_vz ⟨180, 780, -5, 8, 5, 8⟩ x = 1 / 8 := by
  unfold column_inv_vz
  dsimp only
  generalize max (0 : ℚ) (min 1 (((↑x - ↑SCREEN_W / 2) / scale_factor - -5 * (1 / 8)) /
    (5 * (1 / 8) - -5 * (1 / 8)))) = u
  ring

/-- C18 (as stated, refuted). For the sector `deep_floor_sector` (`floor_h = -1e8`,
`ceil_h = 3`, so `ceil_h >= floor_h`), the default pose and the red wall at column 480, the
floor row value `360 + (1e8 + 1) * 60 = 6000000420` does not fit `int`: the conversion gives
`fy = INT_MIN`, which is below `cy = 240`. -/
theorem floor_row_below_ceiling_row :
    deep_floor_sector.floor_h ≤ deep_floor_sector.ceil_h ∧
    project_wall init_player (init_map.walls 0) = some ⟨180, 780, -5, 8, 5, 8⟩ ∧
    column_rows deep_floor_sector init_player ⟨180, 780, -5, 8, 5, 8⟩ 480 =
      some (240, INT_MIN) ∧
    ¬ ((240 : Int) ≤ INT_MIN) := by
  refine ⟨by norm_num [deep_floor_sector], init_wall0_span, ?_, by decide⟩
  rw [column_rows_eq, red_wall_inv_vz]
  have hden : ¬ (|(5 : ℚ) * (1 / 8) - -5 * (1 / 8)| < denom_eps) := by
    norm_num [denom_eps, abs_of_pos]
  have hcy : to_int ((SCREEN_H : ℚ) / 2 - (deep_floor_sector.ceil_h - init_player.z) *
      (scale_factor * (1 / 8))) = 240 := by
    refine to_int_eq _ _ ?_ (by decide)
    norm_num [deep_floor_sector, init_player, scale_factor, tan_half_fov, SCREEN_W, SCREEN_H]
  have hfy : to_int ((SCREEN_H : ℚ) / 2 - (deep_floor_sector.floor_h - init_player.z) *
      (scale_factor * (1 / 8))) = INT_MIN := by
    unfold to_int
    rw [if_neg]
    norm_num [deep_floor_sector, init_player, scale_factor, tan_half_fov, SCREEN_W, SCREEN_H,
      INT_MIN, INT_MAX]
  dsimp only
  rw [if_neg hden, hcy, hfy]

/-- C18 (as amended). For every sector with `ceil_h >= floor_h`, every camera height and
every column processed for a wall that survived projection, the per-column scale `proj` is
strictly positive, and whenever the floor row value `SCREEN_H/2 - (floor_h - z) * proj`
truncates to a value in the range of `int` (it lies strictly between `INT_MIN - 1` and
`INT_MAX + 1`), the projected ceiling row is not below the projected floor row:
`cy <= fy`. -/
theorem ceiling_row_le_floor_row (s : Sector) (p : Player) (w : Wall) (sp : Span) (x : Int)
    (cy fy : Int) (hs : s.floor_h ≤ s.ceil_h) (hsp : project_wall p w = some sp)
    (h : column_rows s p sp x = some (cy, fy))
    (hr : (INT_MIN : ℚ) - 1 <
          (SCREEN_H : ℚ) / 2 - (s.floor_h - p.z) * (scale_factor * column_inv_vz sp x) ∧
        (SCREEN_H : ℚ) / 2 - (s.floor_h - p.z) * (scale_factor * column_inv_vz sp x) <
          (INT_MAX : ℚ) + 1) :
    0 < scale_factor * column_inv_vz sp x ∧ cy ≤ fy := by
  have hnp : 0 < near_plane := by norm_num [near_plane]
  obtain ⟨d1, d2⟩ := project_wall_depths p w sp hsp
  have hinv := column_inv_vz_pos sp x (lt_of_lt_of_le hnp d1) (lt_of_lt_of_le hnp d2)
  have hsf : 0 < scale_factor := by norm_num [scale_factor, tan_half_fov, SCREEN_W]
  have hproj : 0 < scale_factor * column_inv_vz sp x := mul_pos hsf hinv
  refine ⟨hproj, ?_⟩
  rw [column_rows_eq] at h
  split at h
  · exact absurd h (by simp)
  · simp only [Option.some.injEq, Prod.mk.injEq] at h
    obtain ⟨hcy, hfy⟩ := h
    rw [← hcy, ← hfy]
    refine to_int_mono_of_range _ _ ?_ hr
    have := mul_le_mul_of_nonneg_right (sub_le_sub_right hs p.z) (le_of_lt hproj)
    linarith

/-- Witness for `ceiling_row_le_floor_row`: the red wall of the default map at column 480,
rows 240 and 420; the floor row value is 420. -/
theorem ceiling_row_le_floor_row_witness :
    0 < scale_factor * column_inv_vz ⟨180, 780, -5, 8, 5, 8⟩ 480 ∧ (240 : Int) ≤ 420 :=
  ceiling_row_le_floor_row (init_map.sectors 0) init_player (init_map.walls 0)
    ⟨180, 780, -5, 8, 5, 8⟩ 480 240 420 (by simp [init_map]) init_wall0_span
    (red_wall_rows 480) (by
      rw [red_wall_inv_vz]
      norm_num [init_map, init_player, scale_factor, tan_half_fov, SCREEN_W, SCREEN_H,
        INT_MIN, INT_MAX])

/-! ## C19: one column, fully covered -/

/-- Membership in `draw_column`, both ways. -/
theorem mem_draw_column_iff (s : Sector) (w : Wall) (x cy fy : Int) (c : ClipRange)
    (e : Event) :
    e ∈ draw_column s w x cy fy c ↔
      (0 < max cy c.top ∧
        e = Event.line SegKind.ceiling x 0 (max cy c.top - 1)
              (red s.ceil_color) (green s.ceil_color) (blue s.ceil_color)) ∨
      (min fy c.bottom < SCREEN_H - 1 ∧
        e = Event.line SegKind.floor x (min fy c.bottom + 1) (SCREEN_H - 1)
              (red s.floor_color) (green s.floor_color) (blue s.floor_color)) ∨
      (max cy c.top < min fy c.bottom ∧
        e = Event.line SegKind.wall x (max cy c.top) (min fy c.bottom)
              (red w.color) (green w.color) (blue w.color)) := by
  constructor
  · exact mem_draw_column s w x cy fy c e
  · have hmax : (if cy > c.top then cy else c.top) = max cy c.top := by
      split <;> omega
    have hmin : (if fy < c.bottom then fy else c.bottom) = min fy c.bottom := by
      split <;> omega
    intro h
    unfold draw_column
    simp only [hmax, hmin, List.mem_append]
    rcases h with ⟨hc, rfl⟩ | ⟨hc, rfl⟩ | ⟨hc, rfl⟩
    · left; left
      rw [if_pos hc]
      exact List.mem_singleton.mpr rfl
    · left; right
      rw [if_pos hc]
      exact List.mem_singleton.mpr rfl
    · right
      rw [if_pos hc]
      exact List.mem_singleton.mpr rfl

/-- The draw calls of one column are pairwise different. -/
theorem draw_column_nodup (s : Sector) (w : Wall) (x cy fy : Int) (c : ClipRange) :
    (draw_column s w x cy fy c).Nodup := by
  have hmax : (if cy > c.top then cy else c.top) = max cy c.top := by
    split <;> omega
  have hmin : (if fy < c.bottom then fy else c.bottom) = min fy c.bottom := by
    split <;> omega
  unfold draw_column
  simp only [hmax, hmin]
  generalize max cy c.top = a
  generalize min fy c.bottom = b
  by_cases h1 : a > 0 <;> by_cases h2 : b < SCREEN_H - 1 <;> by_cases h3 : a < b <;>
    simp [h1, h2, h3]

/-- C19. For every column and wall where `wall_top = max(cy, clip.top)` and
`wall_bot = min(fy, clip.bottom)` satisfy `0 <= wall_top < wall_bot <= SCREEN_H-1`, the
draw calls of that column for that wall are pairwise different and every row of
`[0, SCREEN_H-1]` is painted by exactly one of them: the ceiling run, rows `0 .. wall_top-1`
in the sector's ceiling colour, for the rows above `wall_top`; the wall run, rows
`wall_top .. wall_bot` in the wall's colour, for the rows from `wall_top` to `wall_bot`; the
floor run, rows `wall_bot+1 .. SCREEN_H-1` in the sector's floor colour, for the rows below
`wall_bot`. -/
theorem column_fully_covered (s : Sector) (w : Wall) (x cy fy : Int) (c : ClipRange)
    (h0 : 0 ≤ max cy c.top) (h1 : max cy c.top < min fy c.bottom)
    (h2 : min fy c.bottom ≤ SCREEN_H - 1) :
    (draw_column s w x cy fy c).Nodup ∧
    ∀ y, 0 ≤ y → y ≤ SCREEN_H - 1 → ∀ e,
      (e ∈ draw_column s w x cy fy c ∧ painted e y) ↔
        e = (if y < max cy c.top then
              Event.line SegKind.ceiling x 0 (max cy c.top - 1)
                (red s.ceil_color) (green s.ceil_color) (blue s.ceil_color)
            else if y ≤ min fy c.bottom then
              Event.line SegKind.wall x (max cy c.top) (min fy c.bottom)
                (red w.color) (green w.color) (blue w.color)
            else
              Event.line SegKind.floor x (min fy c.bottom + 1) (SCREEN_H - 1)
                (red s.floor_color) (green s.floor_color) (blue s.floor_color)) := by
  refine ⟨draw_column_nodup s w x cy fy c, ?_⟩
  intro y hy0 hy1 e
  rw [mem_draw_column_iff]
  generalize max cy c.top = a at h0 h1 ⊢
  generalize min fy c.bottom = b at h1 h2 ⊢
  constructor
  · rintro ⟨(⟨hc, rfl⟩ | ⟨hc, rfl⟩ | ⟨hc, rfl⟩), hp⟩
    · simp only [painted] at hp
      rw [if_pos (by omega)]
    · simp only [painted] at hp
      rw [if_neg (by omega), if_neg (by omega)]
    · simp only [painted] at hp
      rw [if_neg (by omega), if_pos (by omega)]
  · intro he
    by_cases hya : y < a
    · rw [if_pos hya] at he
      subst he
      refine ⟨Or.inl ⟨by omega, rfl⟩, ?_⟩
      simp only [painted]
      omega
    · rw [if_neg hya] at he
      by_cases hyb : y ≤ b
      · rw [if_pos hyb] at he
        subst he
        refine ⟨Or.inr (Or.inr ⟨h1, rfl⟩), ?_⟩
        simp only [painted]
        omega
      · rw [if_neg hyb] at he
        subst he
        refine ⟨Or.inr (Or.inl ⟨by omega, rfl⟩), ?_⟩
        simp only [painted]
        omega

/-- Witness for `column_fully_covered`: the red wall of the default map at column 480, rows
`(240, 420)` against the fully open range, and row 300 of its wall run. -/
theorem column_fully_covered_witness :
    (Event.line SegKind.wall 480 240 420 255 0 0 ∈
        draw_column (init_map.sectors 0) (init_map.walls 0) 480 240 420 ⟨0, 719⟩ ∧
      painted (Event.line SegKind.wall 480 240 420 255 0 0) 300) ↔
    Event.line SegKind.wall 480 240 420 255 0 0 =
      (if (300 : Int) < max 240 (0 : Int) then
        Event.line SegKind.ceiling 480 0 (max 240 (0 : Int) - 1)
          (red (init_map.sectors 0).ceil_color) (green (init_map.sectors 0).ceil_color)
          (blue (init_map.sectors 0).ceil_color)
      else if (300 : Int) ≤ min 420 (719 : Int) then
        Event.line SegKind.wall 480 (max 240 (0 : Int)) (min 420 (719 : Int))
          (red (init_map.walls 0).color) (green (init_map.walls 0).color)
          (blue (init_map.walls 0).color)
      else
        Event.line SegKind.floor 480 (min 420 (719 : Int) + 1) (SCREEN_H - 1)
          (red (init_map.sectors 0).floor_color) (green (init_map.sectors 0).floor_color)
          (blue (init_map.sectors 0).floor_color)) :=
  (column_fully_covered (init_map.sectors 0) (init_map.walls 0) 480 240 420 ⟨0, 719⟩
    (by decide) (by decide) (by decide)).2 300 (by decide) (by decide)
    (Event.line SegKind.wall 480 240 420 255 0 0)

end PortalEngine
